import Mathlib

/-!
Shallow embedding of the incremental-marking controller of a tri-color
garbage collector (src/heap/incremental-marking.cc) together with proofs
about its write barrier, left-trimming color transfer, scavenge worklist
update, progress-bar scanning, finalization rounds, retained-map aging,
drain termination, cancellation and step accounting.

Objects are identifiers in `Fin N`; the per-object two-bit mark is the
`Color` type below.  Mark-bit primitives (`WhiteToGrey`, `GreyToBlack`,
`WhiteToBlack`) are external to the translated file and are modelled from
the spec's mark-bit store contract (section 4.1): `WhiteToGrey` is a CAS
of the first bit 0 to 1, `GreyToBlack` a CAS of the second bit 0 to 1
when the first bit is 1, `WhiteToBlack` their short-circuit composition.
-/

namespace V8

/-- Two-bit per-object color. White = 00, Grey = 10, Black = 11; 01 is
the impossible pattern (second bit set, first clear). -/
inductive Color where
  | White
  | Grey
  | Black
  | Impossible
deriving DecidableEq, Repr

/-- First mark bit of a color. -/
def Color.bit0 : Color → Bool
  | .White => false
  | .Grey => true
  | .Black => true
  | .Impossible => false

/-- Second mark bit of a color. -/
def Color.bit1 : Color → Bool
  | .White => false
  | .Grey => false
  | .Black => true
  | .Impossible => true

/-- Color encoded by a pair of mark bits. -/
def Color.ofBits : Bool → Bool → Color
  | false, false => .White
  | true, false => .Grey
  | true, true => .Black
  | false, true => .Impossible

/-- `Marking::IsWhite`. -/
def Color.isWhite : Color → Bool
  | .White => true
  | _ => false

/-- `Marking::IsGrey`. -/
def Color.isGrey : Color → Bool
  | .Grey => true
  | _ => false

/-- `Marking::IsBlack`. -/
def Color.isBlack : Color → Bool
  | .Black => true
  | _ => false

/-- `Marking::IsImpossible`. -/
def Color.isImpossible : Color → Bool
  | .Impossible => true
  | _ => false

/-- Controller state enum (`STOPPED`, `SWEEPING`, `MARKING`, `COMPLETE`). -/
inductive IMState where
  | STOPPED
  | SWEEPING
  | MARKING
  | COMPLETE
deriving DecidableEq, Repr

/-- `RecordWriteStub::Mode`. -/
inductive StubMode where
  | STORE_BUFFER_ONLY
  | INCREMENTAL
  | INCREMENTAL_COMPACTION
deriving DecidableEq, Repr

/-- `IncrementalMarking::StepOrigin`. -/
inductive StepOrigin where
  | kV8
  | kTask
deriving DecidableEq, Repr

/-- `IncrementalMarking::CompletionAction`. -/
inductive CompletionAction where
  | GC_VIA_STACK_GUARD
  | NO_GC_VIA_STACK_GUARD
deriving DecidableEq, Repr

/-- `IncrementalMarking::ForceCompletionAction`. -/
inductive ForceCompletionAction where
  | FORCE_COMPLETION
  | DO_NOT_FORCE_COMPLETION
deriving DecidableEq, Repr

/-- `IncrementalMarking::GCRequestType`. -/
inductive RequestType where
  | NONE
  | COMPLETE_MARKING
  | FINALIZATION
deriving DecidableEq, Repr

/-- Pointer size in bytes on the modelled 64-bit target. -/
def kPointerSize : Nat := 8

/-- `FixedArray::BodyDescriptor::kStartOffset` (header of map plus
length word). -/
def kStartOffset : Nat := 16

/-- `IncrementalMarkingMarkingVisitor::kProgressBarScanningChunk`. -/
def kProgressBarScanningChunk : Nat := 32 * 1024

/-- Modelled from the spec: the allocation-observer threshold
`ALLOCATED_THRESHOLD`; its exact value lives outside the translated
file and the proofs do not depend on it. -/
def kAllocatedThreshold : Nat := 64 * 1024

/-- Modelled from the spec: the idle-marking delay limit; the exact
value lives outside the translated file. -/
def kMaxIdleMarkingDelayCounter : Nat := 3

/-- One `(weak cell, age)` pair of the retained-maps array, with the
map's constructor and prototype (as heap objects, when they are ones). -/
structure MapEntry (N : Nat) where
  cleared : Bool
  mapObj : Fin N
  age : Nat
  constructorO : Option (Fin N)
  prototypeO : Option (Fin N)
deriving DecidableEq, Repr

/-- The incremental-marking controller state together with the parts of
its collaborators (heap layout, worklist, compacting collector slot log,
stub registry, stack guard, embedder) that the translated functions
read or write.  Object layout fields (`mapOf`, `sizeOf`, `fields`,
`isFillerO`, `hasProgressBar`) are read-only during a cycle. -/
structure IMHeap (N : Nat) where
  color : Fin N → Color
  worklist : List (Fin N)
  bailout : List (Fin N)
  capacity : Nat
  recorded : List (Fin N × Nat × Fin N)
  mapOf : Fin N → Fin N
  isFillerO : Fin N → Bool
  sizeOf : Fin N → Nat
  fields : Fin N → Nat → Option (Fin N)
  hasProgressBar : Fin N → Bool
  progressBar : Fin N → Nat
  rootsG : List (Fin N)
  state : IMState
  isCompacting : Bool
  blackAllocation : Bool
  shouldHurry : Bool
  wasActivated : Bool
  finalizeCompleted : Bool
  finalizationRounds : Nat
  idleCounter : Nat
  requestType : RequestType
  unscannedBytes : Nat
  bytesAhead : Nat
  bytesAllocated : Nat
  oldGenCounter : Nat
  observersAttached : Bool
  stubMode : StubMode
  barrierActive : Bool
  gcRequested : Bool
  sweepingInProgress : Bool
  sweeperTasksRunning : Bool
  serializerEnabled : Bool
  inGC : Bool
  alwaysAllocate : Bool
  startCompactionOK : Bool
  shouldFinalizeEmbedder : Bool
  wrappers : Nat
  retainedMaps : List (MapEntry N)
  disposedMaps : Nat
  shouldReduceMemory : Bool
  shouldAbortIM : Bool
  flagConcurrent : Bool
  v8ConcurrentBuild : Bool
  flagIncremental : Bool
  flagNeverCompact : Bool
  flagConcurrentSweeping : Bool
  flagBlackAllocationF : Bool
  flagRetainMaps : Nat
  flagMaxRounds : Nat
  flagMinProgress : Nat

variable {N : Nat}

/-- `IncrementalMarking::IsMarking`: the state is `MARKING` or
`COMPLETE`. -/
def IMHeap.isMarking (s : IMHeap N) : Bool :=
  s.state = IMState.MARKING ∨ s.state = IMState.COMPLETE

/-- Modelled from the spec: `MarkingWorklist::IsFull` of the shared
queue (section 4.2 makes `Push` fallible when the queue is full). -/
def isFull (s : IMHeap N) : Bool :=
  s.capacity ≤ s.worklist.length

/-- Total number of queued entries (shared queue plus bailout queue);
`MarkingWorklist::Size`. -/
def worklistSize (s : IMHeap N) : Nat :=
  s.worklist.length + s.bailout.length

/-- `IncrementalMarking::WhiteToGreyAndPush` (lines 114-120): attempt
the CAS of the object's first mark bit; on success push the object onto
the marking worklist and report `true`. -/
def whiteToGreyAndPush (s : IMHeap N) (obj : Fin N) : IMHeap N × Bool :=
  if (s.color obj).bit0 then (s, false)
  else
    ({ s with
        color := Function.update s.color obj (Color.ofBits true (s.color obj).bit1)
        worklist := s.worklist ++ [obj] }, true)

/-- `IncrementalMarking::RestartIfNotMarking` (header inline, modelled
from the spec: when marking is paused mid-cycle in `COMPLETE`, restart
stepping by moving the state back to `MARKING`). -/
def restartIfNotMarking (s : IMHeap N) : IMHeap N :=
  if s.state = IMState.COMPLETE then { s with state := IMState.MARKING } else s

/-- `IncrementalMarking::BaseRecordWrite` (lines 54-67): decide whether
the write needs recording, transition a white target to grey and push
it, and report whether the slot must be recorded. -/
def baseRecordWrite (s : IMHeap N) (obj value : Fin N) : IMHeap N × Bool :=
  let needRecording := s.flagConcurrent ∨ (s.color obj).isBlack
  let pr := if needRecording then whiteToGreyAndPush s value else (s, false)
  let s2 := if pr.2 then restartIfNotMarking pr.1 else pr.1
  (s2, s.isCompacting ∧ needRecording)

/-- `IncrementalMarking::RecordWriteSlow` (lines 70-76): run the base
barrier and, when it asks for it and the slot pointer is non-null,
record the slot with the compacting collector. -/
def recordWriteSlow (s : IMHeap N) (obj : Fin N) (slot : Option Nat)
    (value : Fin N) : IMHeap N :=
  let pr := baseRecordWrite s obj value
  match pr.2, slot with
  | true, some sl => { pr.1 with recorded := pr.1.recorded ++ [(obj, sl, value)] }
  | _, _ => pr.1

/-- `ObjectMarking::GreyToBlack` on an object: CAS the second mark bit
0 to 1 while the first bit is 1 (modelled from the spec's mark-bit
store contract, section 4.1). -/
def greyToBlackObj (s : IMHeap N) (obj : Fin N) : IMHeap N × Bool :=
  if (s.color obj).bit0 ∧ ¬(s.color obj).bit1 then
    ({ s with color := Function.update s.color obj Color.Black }, true)
  else (s, false)

/-- The pointer-slot byte offsets visited by
`VisitPointers(host, RawField(startOff), RawField(endOff))`: every
`kPointerSize`-th offset in `[startOff, endOff)`. -/
def offsetsList (startOff endOff : Nat) : List Nat :=
  List.range' startOff ((endOff - startOff + kPointerSize - 1) / kPointerSize)
    kPointerSize

/-- One iteration of `IncrementalMarkingMarkingVisitor::VisitPointers`
(lines 282-291): if the slot holds a heap object, record the slot with
the compacting collector and mark the target grey and push it. -/
def visitSlot (s : IMHeap N) (host : Fin N) (off : Nat) : IMHeap N :=
  match s.fields host off with
  | some target =>
      (whiteToGreyAndPush
        { s with recorded := s.recorded ++ [(host, off, target)] } target).1
  | none => s

/-- `IncrementalMarkingMarkingVisitor::VisitPointers` over the slots of
`host` in the byte range `[startOff, endOff)`. -/
def visitPointers (s : IMHeap N) (host : Fin N) (startOff endOff : Nat) :
    IMHeap N :=
  (offsetsList startOff endOff).foldl (fun t off => visitSlot t host off) s

/-- The do-while loop of `VisitFixedArray` (lines 238-244): scan the
chunk `[startOff, endOff)`, then keep scanning further chunks through
to the end of the object only while the worklist is full.  The fuel
argument bounds the recursion; `visitFixedArray` supplies enough fuel
for the loop never to be cut short. -/
def scanLoop (host : Fin N) (size : Nat) :
    Nat → Nat → Nat → IMHeap N → Nat × IMHeap N
  | 0, startOff, _, s => (startOff, s)
  | fuel + 1, startOff, endOff, s =>
    let s1 := visitPointers s host startOff endOff
    if isFull s1 ∧ endOff < size then
      scanLoop host size fuel endOff
        (min size (endOff + kProgressBarScanningChunk)) s1
    else (endOff, s1)

/-- `IncrementalMarkingMarkingVisitor::VisitFixedArray` (lines
209-255).  On a chunk with `HAS_PROGRESS_BAR`, re-push the object (to
the bailout queue in a concurrent build, to the normal queue otherwise,
the latter modelled from the spec, section 4.3), scan one 32 KiB chunk
starting at `max(kStartOffset, progress_bar)` — continuing to the end
only while the worklist is full —, store the new progress bar, and on
an incomplete scan report `object_size - (new_offset -
already_scanned_offset)` unscanned bytes.  Without a progress bar,
iterate the whole body.  Returns the object size. -/
def visitFixedArray (s : IMHeap N) (obj : Fin N) : Nat × IMHeap N :=
  let size := s.sizeOf obj
  if s.hasProgressBar obj then
    let startOff := max kStartOffset (s.progressBar obj)
    if startOff < size then
      let s1 :=
        if s.v8ConcurrentBuild then { s with bailout := s.bailout ++ [obj] }
        else { s with worklist := s.worklist ++ [obj] }
      let pr := scanLoop obj size size startOff
        (min size (startOff + kProgressBarScanningChunk)) s1
      let s3 := { pr.2 with progressBar := Function.update pr.2.progressBar obj pr.1 }
      if pr.1 < size then
        (size, { s3 with unscannedBytes := size - (pr.1 - startOff) })
      else (size, s3)
    else (size, s)
  else (size, visitPointers s obj kStartOffset size)

/-- `IncrementalMarking::VisitObject` (lines 820-839): blacken the
object, mark its map grey and push it, then run the marking visitor on
the object's body.  The visitor dispatch (external
`MarkingVisitor::Visit`) is modelled from the spec (sections 4.3 and
9): the progress-bar chunk scan for arrays on `HAS_PROGRESS_BAR`
chunks, a full body scan otherwise — which is what `visitFixedArray`
computes for both cases. -/
def visitObject (s : IMHeap N) (obj : Fin N) : IMHeap N :=
  let s1 := (greyToBlackObj s obj).1
  let s2 := (whiteToGreyAndPush s1 (s.mapOf obj)).1
  (visitFixedArray s2 obj).2

/-- Modelled from the spec (sections 4.2 and 9): `MarkingWorklist::Pop`
drains the bailout queue first, then the shared queue. -/
def popWorklist (s : IMHeap N) : Option (Fin N × IMHeap N) :=
  match s.bailout with
  | o :: r => some (o, { s with bailout := r })
  | [] =>
    match s.worklist with
    | o :: r => some (o, { s with worklist := r })
    | [] => none

/-- `IncrementalMarking::ProcessMarkingWorklist` (lines 862-887): while
the budget is not exhausted (or completion is forced), pop; stop when
the queue is empty; skip fillers; otherwise visit the object and credit
`size - unscanned_bytes_of_large_object_` processed bytes.  `bp` is the
accumulated `bytes_processed`; the fuel argument bounds the loop and
callers supply enough for it never to be cut short. -/
def processMarkingWorklist :
    Nat → Nat → Nat → ForceCompletionAction → IMHeap N → Nat × IMHeap N
  | 0, bp, _, _, s => (bp, s)
  | fuel + 1, bp, btp, completion, s =>
    if bp < btp ∨ completion = ForceCompletionAction.FORCE_COMPLETION then
      match popWorklist s with
      | none => (bp, s)
      | some (obj, s1) =>
        if s1.isFillerO obj then
          processMarkingWorklist fuel bp btp completion s1
        else
          let size := s1.sizeOf obj
          let s2 := visitObject { s1 with unscannedBytes := 0 } obj
          processMarkingWorklist fuel (bp + (size - s2.unscannedBytes)) btp
            completion s2
    else (bp, s)

/-- `IncrementalMarking::MarkRoots` / the strong-root pass of
`StartMarking`: mark every strong root grey and push it. -/
def markRoots (s : IMHeap N) : IMHeap N :=
  s.rootsG.foldl (fun t o => (whiteToGreyAndPush t o).1) s

/-- `IncrementalMarking::StartMarking` (lines 521-583), with the
external stub patching, page-flag activation, compilation-cache and
embedder calls reduced to their state effects: refuse under the
serializer; decide compaction; move to `MARKING`; patch the
record-write stubs for the chosen mode; activate the per-page barrier
flags; start black allocation under concurrent marking; mark the
strong roots grey. -/
def startMarkingG (s : IMHeap N) : IMHeap N :=
  if s.serializerEnabled then s
  else
    let comp := ¬s.flagNeverCompact ∧ s.startCompactionOK
    let s1 := { s with
      isCompacting := comp
      state := IMState.MARKING
      stubMode := if comp then StubMode.INCREMENTAL_COMPACTION
                  else StubMode.INCREMENTAL
      barrierActive := true }
    let s2 := if s1.flagConcurrent ∧ ¬s1.blackAllocation then
        { s1 with blackAllocation := true }
      else s1
    markRoots s2

/-- `IncrementalMarking::FinalizeSweeping` (lines 1063-1073): complete
sweeping when possible (the external sweeper is represented by the
`sweepingInProgress` and `sweeperTasksRunning` fields) and start
marking once sweeping is done. -/
def finalizeSweeping (s : IMHeap N) : IMHeap N :=
  let s1 := if s.sweepingInProgress ∧
      (¬s.flagConcurrentSweeping ∨ ¬s.sweeperTasksRunning) then
      { s with sweepingInProgress := false }
    else s
  if ¬s1.sweepingInProgress then startMarkingG s1 else s1

/-- `IncrementalMarking::FinalizeMarking` (lines 979-990): request
finalization and, for `GC_VIA_STACK_GUARD`, post the stack-guard GC
request. -/
def finalizeMarkingReq (action : CompletionAction) (s : IMHeap N) : IMHeap N :=
  let s1 := { s with requestType := RequestType.FINALIZATION }
  if action = CompletionAction.GC_VIA_STACK_GUARD then
    { s1 with gcRequested := true }
  else s1

/-- `IncrementalMarking::MarkingComplete` (lines 993-1009): move to
`COMPLETE`, set the should-hurry flag, request complete marking, and
for `GC_VIA_STACK_GUARD` post the stack-guard GC request. -/
def markingCompleteF (action : CompletionAction) (s : IMHeap N) : IMHeap N :=
  let s1 := { s with
    state := IMState.COMPLETE
    shouldHurry := true
    requestType := RequestType.COMPLETE_MARKING }
  if action = CompletionAction.GC_VIA_STACK_GUARD then
    { s1 with gcRequested := true }
  else s1

/-- `IncrementalMarking::IsIdleMarkingDelayCounterLimitReached`
(lines 1202-1204). -/
def isIdleMarkingDelayCounterLimitReached (s : IMHeap N) : Bool :=
  kMaxIdleMarkingDelayCounter < s.idleCounter

/-- The completion handshake at the end of `Step` (lines 1166-1186):
once the worklist has emptied, either request finalization, declare
marking complete, or bump the idle-marking delay counter. -/
def stepTail (action : CompletionAction) (completion : ForceCompletionAction)
    (t : IMHeap N) : IMHeap N :=
  if t.worklist = [] ∧ t.bailout = [] then
    if t.shouldFinalizeEmbedder then
      if completion = ForceCompletionAction.FORCE_COMPLETION ∨
          isIdleMarkingDelayCounterLimitReached t then
        if ¬t.finalizeCompleted then finalizeMarkingReq action t
        else markingCompleteF action t
      else { t with idleCounter := t.idleCounter + 1 }
    else t
  else t

/-- `IncrementalMarking::Step` (lines 1142-1199): finalize sweeping in
`SWEEPING`; in `MARKING`, drain up to `bytesToProcess` bytes, credit a
background-task step's processed bytes to
`bytes_marked_ahead_of_schedule_`, and when the worklist has emptied
run the completion handshake.  Returns the processed bytes.  The fuel
argument bounds the drain loop. -/
def step (fuel bytesToProcess : Nat) (action : CompletionAction)
    (completion : ForceCompletionAction) (origin : StepOrigin) (s : IMHeap N) :
    Nat × IMHeap N :=
  let s0 := if s.state = IMState.SWEEPING then finalizeSweeping s else s
  if s0.state = IMState.MARKING then
    let pr := processMarkingWorklist fuel 0 bytesToProcess
      ForceCompletionAction.DO_NOT_FORCE_COMPLETION s0
    let s1 := pr.2
    let s2 := if origin = StepOrigin.kTask then
        { s1 with bytesAhead := s1.bytesAhead + pr.1 }
      else s1
    (pr.1, stepTail action completion s2)
  else (0, s0)

/-- `ShouldRetainMap` (lines 636-653): a map whose age has expired, or
whose constructor is not a heap object or is white (dead), is not
retained. -/
def shouldRetainMap (s : IMHeap N) (e : MapEntry N) (age : Nat) : Bool :=
  if age = 0 then false
  else
    match e.constructorO with
    | none => false
    | some c => ¬(s.color c).isWhite

/-- The prototype check of the aging branch of `RetainMaps` (lines
681-685): the prototype is a heap object and is still white. -/
def protoUnmarked (s : IMHeap N) (e : MapEntry N) : Bool :=
  match e.prototypeO with
  | some p => (s.color p).isWhite
  | none => false

/-- The disabling condition of `RetainMaps` (lines 660-662): memory
pressure, a requested abort, or a zero retention flag. -/
def mapRetainingIsDisabled (s : IMHeap N) : Bool :=
  s.shouldReduceMemory ∨ s.shouldAbortIM ∨ s.flagRetainMaps = 0

/-- The loop of `IncrementalMarking::RetainMaps` (lines 669-700) over
the retained-maps entries, `i` being the flattened array index of the
current entry (it advances by 2 per pair).  Cleared cells are skipped;
an entry past the disposed prefix with retaining enabled and a white
map is retained (grey and pushed) when `shouldRetainMap` says so and
aged when its prototype is an unmarked heap object; every other entry
has its age reset to `FLAG_retain_maps_for_n_gc`. -/
def retainMapsGo : Nat → List (MapEntry N) → IMHeap N →
    List (MapEntry N) × IMHeap N
  | _, [], s => ([], s)
  | i, e :: rest, s =>
    if e.cleared then
      let pr := retainMapsGo (i + 2) rest s
      (e :: pr.1, pr.2)
    else
      let na :=
        if s.disposedMaps ≤ i ∧ ¬mapRetainingIsDisabled s ∧
            (s.color e.mapObj).isWhite then
          let t := if shouldRetainMap s e e.age then
              (whiteToGreyAndPush s e.mapObj).1
            else s
          let newAge := if 0 < e.age ∧ protoUnmarked t e then e.age - 1
            else e.age
          (newAge, t)
        else (s.flagRetainMaps, s)
      let pr := retainMapsGo (i + 2) rest na.2
      ({ e with age := na.1 } :: pr.1, pr.2)

/-- `IncrementalMarking::RetainMaps` (lines 656-701). -/
def retainMaps (s : IMHeap N) : IMHeap N :=
  let pr := retainMapsGo 0 s.retainedMaps s
  { pr.2 with retainedMaps := pr.1 }

/-- `IncrementalMarking::FinalizeIncrementally` (lines 703-753):
re-mark the strong roots, run `RetainMaps` on the first round only,
measure the marking progress (worklist size plus cached wrapper
count), increment the round counter, complete finalization when the
rounds reach `FLAG_max_incremental_marking_finalization_rounds` or the
progress falls below
`FLAG_min_progress_during_incremental_marking_finalization`, and start
black allocation when eligible. -/
def finalizeIncrementally (s : IMHeap N) : IMHeap N :=
  let s1 := markRoots s
  let s2 := if s1.finalizationRounds = 0 then retainMaps s1 else s1
  let progress := worklistSize s2 + s2.wrappers
  let rounds := s2.finalizationRounds + 1
  let fc := if s2.flagMaxRounds ≤ rounds ∨ progress < s2.flagMinProgress then
      true
    else s2.finalizeCompleted
  let s3 := { s2 with finalizationRounds := rounds, finalizeCompleted := fc }
  if s3.flagBlackAllocationF ∧ ¬s3.shouldReduceMemory ∧ ¬s3.blackAllocation then
    { s3 with blackAllocation := true }
  else s3

/-- `IncrementalMarking::Stop` (lines 936-970): from any active state,
detach the allocation observers, reset should-hurry, patch the
record-write stubs back to store-buffer-only mode and deactivate the
per-page barrier flags when marking, clear any stack-guard GC request,
move to `STOPPED`, and reset compaction and black allocation. -/
def stop (s : IMHeap N) : IMHeap N :=
  if s.state = IMState.STOPPED then s
  else
    let s1 := { s with observersAttached := false, shouldHurry := false }
    let s2 := if s1.isMarking then
        { s1 with stubMode := StubMode.STORE_BUFFER_ONLY, barrierActive := false }
      else s1
    { s2 with
      gcRequested := false
      state := IMState.STOPPED
      isCompacting := false
      blackAllocation := false }

/-- `IncrementalMarking::StepSizeToKeepUpWithAllocations` (lines
1075-1081): fold the allocation counter delta into `bytes_allocated_`;
`currentCounter` stands for the external
`OldGenerationAllocationCounter()` reading. -/
def stepSizeToKeepUpWithAllocations (s : IMHeap N) (currentCounter : Nat) :
    Nat × IMHeap N :=
  let ba := s.bytesAllocated + (currentCounter - s.oldGenCounter)
  (ba, { s with bytesAllocated := ba, oldGenCounter := currentCounter })

/-- `IncrementalMarking::AdvanceIncrementalMarkingOnAllocation` (lines
1104-1140).  The externally measured quantities — the allocation
counter reading, the time-ramped `StepSizeToMakeProgress` result and
the `EstimateMarkingStepSize` cap — enter as the arguments
`currentCounter`, `stepSizeProgress` and `maxStepSize`.  When the
ahead-of-schedule credit covers the step, consume it without touching
the worklist; otherwise run a `kV8` step. -/
def advanceIncrementalMarkingOnAllocation
    (fuel currentCounter stepSizeProgress maxStepSize : Nat) (s : IMHeap N) :
    IMHeap N :=
  if s.inGC ∨ ¬s.flagIncremental ∨
      (s.state ≠ IMState.SWEEPING ∧ s.state ≠ IMState.MARKING) ∨
      s.alwaysAllocate then s
  else
    let pr := stepSizeToKeepUpWithAllocations s currentCounter
    let btp0 := pr.1 + stepSizeProgress
    if kAllocatedThreshold ≤ btp0 then
      let btp := min btp0 maxStepSize
      if btp ≤ pr.2.bytesAhead then
        let s2 := { pr.2 with bytesAhead := pr.2.bytesAhead - btp }
        { s2 with bytesAllocated := s2.bytesAllocated - min s2.bytesAllocated btp }
      else
        let st := step fuel btp CompletionAction.GC_VIA_STACK_GUARD
          ForceCompletionAction.FORCE_COMPLETION StepOrigin.kV8 pr.2
        { st.2 with
          bytesAllocated := st.2.bytesAllocated - min st.2.bytesAllocated st.1 }
    else pr.2

/-- Weight of a color in the not-yet-first-bit-marked count. -/
def colorWeight (c : Color) : Nat :=
  if c.bit0 then 0 else 1

/-- Number of objects whose first mark bit is still clear (the objects
that `WhiteToGreyAndPush` can still push). -/
def whiteCount (s : IMHeap N) : Nat :=
  Finset.univ.sum fun o => colorWeight (s.color o)

/-- Number of 32 KiB chunks left to scan on an object's progress bar. -/
def chunksLeft (s : IMHeap N) (o : Fin N) : Nat :=
  if s.hasProgressBar o then
    (s.sizeOf o - s.progressBar o + kProgressBarScanningChunk - 1) /
      kProgressBarScanningChunk
  else 0

/-- Total pending progress-bar chunks. -/
def pbCount (s : IMHeap N) : Nat :=
  Finset.univ.sum fun o => chunksLeft s o

/-- Termination measure of the marking drain: twice the pushable
objects, plus the queued entries, plus the pending progress-bar
chunks.  Every pop of `ProcessMarkingWorklist` strictly decreases it. -/
def measureG (s : IMHeap N) : Nat :=
  2 * whiteCount s + worklistSize s + pbCount s

/-- One invocation of `Step` as driven from the outside, with enough
fuel for its drain loop never to be cut short and a positive byte
budget (the unbounded-budget regime of repeated stepping). -/
def stepAuto (b : Nat) (s : IMHeap N) : IMHeap N :=
  (step (measureG s) (b + 1) CompletionAction.GC_VIA_STACK_GUARD
    ForceCompletionAction.DO_NOT_FORCE_COMPLETION StepOrigin.kV8 s).2

/-- The marking progress measured by `FinalizeIncrementally` at its
measurement point: worklist size plus cached wrapper count, taken
after the root re-mark and the possible `RetainMaps` round. -/
def measuredProgress (s : IMHeap N) : Nat :=
  let s1 := markRoots s
  let s2 := if s1.finalizationRounds = 0 then retainMaps s1 else s1
  worklistSize s2 + s2.wrappers

/-!
`NotifyLeftTrimming` works directly on mark bits, where the bit pair of
the trimmed-to object can overlap the bit pair of the original object.
It is therefore modelled on a raw bitmap: addresses are in pointer-size
word units, the object at word address `a` owns bits `a` and `a + 1`,
and `from + kPointerSize == to` in the source is `fromA + 1 = toA`
here.  The `Marking` bit primitives are external to the translated
file and are modelled from the spec's mark-bit store contract
(section 4.1).
-/

/-- The state touched by `NotifyLeftTrimming`: the mark bitmap, the
worklist (of pushed word addresses), black allocation, the
concurrent-marking flag and the controller state. -/
structure TrimHeap where
  bitmap : Nat → Bool
  worklistT : List Nat
  blackAllocationT : Bool
  flagConcurrentT : Bool
  stateT : IMState

/-- Color of the object at word address `a`: its two mark bits. -/
def colorAt (bm : Nat → Bool) (a : Nat) : Color :=
  Color.ofBits (bm a) (bm (a + 1))

/-- `MarkBit::Set` on bit `i`. -/
def setBit (bm : Nat → Bool) (i : Nat) : Nat → Bool :=
  Function.update bm i true

/-- `Marking::WhiteToGrey` on the bit pair at `a`: CAS the first bit
0 to 1. -/
def markWhiteToGrey (bm : Nat → Bool) (a : Nat) : (Nat → Bool) × Bool :=
  if bm a then (bm, false) else (setBit bm a, true)

/-- `Marking::GreyToBlack` on the bit pair at `a`: CAS the second bit
0 to 1 while the first bit is 1. -/
def markGreyToBlack (bm : Nat → Bool) (a : Nat) : (Nat → Bool) × Bool :=
  if bm a ∧ ¬bm (a + 1) then (setBit bm (a + 1), true) else (bm, false)

/-- `Marking::WhiteToBlack` on the bit pair at `a`: `WhiteToGrey`
followed, on success, by `GreyToBlack` (short-circuit composition). -/
def markWhiteToBlack (bm : Nat → Bool) (a : Nat) : (Nat → Bool) × Bool :=
  let pr := markWhiteToGrey bm a
  if pr.2 then markGreyToBlack pr.1 a else (pr.1, false)

/-- `IncrementalMarking::NotifyLeftTrimming` (lines 136-195).  Nothing
to do when the destination already sits in a black-allocation area.
Under concurrent marking first promote the old start to black.  A
pre-trim black start transfers black to `toA` (second bit only when the
bit pairs overlap); a grey start — or a start blackened by this very
function — makes `toA` grey (first bit only when they overlap), pushes
it and restarts stepping. -/
def notifyLeftTrimming (s : TrimHeap) (fromA toA : Nat) : TrimHeap :=
  if s.blackAllocationT ∧ (colorAt s.bitmap toA).isBlack then s
  else
    let pr :=
      if s.flagConcurrentT then
        markGreyToBlack (markWhiteToGrey s.bitmap fromA).1 fromA
      else (s.bitmap, false)
    let bm1 := pr.1
    let trimBlack := pr.2
    if (colorAt bm1 fromA).isBlack ∧ ¬trimBlack then
      if fromA + 1 = toA then { s with bitmap := setBit bm1 (toA + 1) }
      else { s with bitmap := (markWhiteToBlack bm1 toA).1 }
    else if (colorAt bm1 fromA).isGrey ∨ trimBlack then
      let bm2 := if fromA + 1 = toA then setBit bm1 toA
        else (markWhiteToGrey bm1 toA).1
      { s with
        bitmap := bm2
        worklistT := s.worklistT ++ [toA]
        stateT := if s.stateT = IMState.COMPLETE then IMState.MARKING
          else s.stateT }
    else { s with bitmap := bm1 }

/-!
`UpdateMarkingWorklistAfterScavenge` consults the scavenger's spaces,
forwarding words and page flags; these collaborators are represented
as attribute functions over plain object identifiers.
-/

/-- State for the post-scavenge worklist rewrite: the worklist and the
heap attributes its predicate consults. -/
structure ScavHeap where
  stateS : IMState
  worklistS : List Nat
  inFromSpace : Nat → Bool
  inToSpace : Nat → Bool
  forwardingS : Nat → Option Nat
  sweepToIterate : Nat → Bool
  externalGrey : Nat → Bool
  mapOfS : Nat → Nat
  fillerMapS : Nat

/-- The rewrite predicate passed to `marking_worklist()->Update` (lines
760-811): a from-space entry follows its forwarding address or is
dropped; a to-space entry, or an old-space entry on a sweep-to-iterate
page, survives exactly when it is grey in the external marking state;
any other old-space entry survives unless its map is the one-pointer
filler map. -/
def updateEntry (h : ScavHeap) (obj : Nat) : Option Nat :=
  if h.inFromSpace obj then
    match h.forwardingS obj with
    | none => none
    | some dest => some dest
  else if h.inToSpace obj then
    if h.externalGrey obj then some obj else none
  else if h.sweepToIterate obj then
    if h.externalGrey obj then some obj else none
  else if h.mapOfS obj ≠ h.fillerMapS then some obj
  else none

/-- `IncrementalMarking::UpdateMarkingWorklistAfterScavenge` (lines
755-812): while marking, rewrite every worklist entry through
`updateEntry` (the external `Worklist::Update` bulk rewrite is
modelled from the spec, section 4.2, as a filter-map). -/
def updateMarkingWorklistAfterScavenge (h : ScavHeap) : ScavHeap :=
  if h.stateS = IMState.MARKING ∨ h.stateS = IMState.COMPLETE then
    { h with worklistS := h.worklistS.filterMap (updateEntry h) }
  else h

/-- A one-object heap in the middle of a marking cycle, used as the
base for the concrete evaluation states below. -/
def baseHeap : IMHeap 1 where
  color := fun _ => Color.White
  worklist := []
  bailout := []
  capacity := 1000
  recorded := []
  mapOf := fun o => o
  isFillerO := fun _ => false
  sizeOf := fun _ => 24
  fields := fun _ _ => none
  hasProgressBar := fun _ => false
  progressBar := fun _ => 0
  rootsG := []
  state := IMState.MARKING
  isCompacting := false
  blackAllocation := false
  shouldHurry := false
  wasActivated := true
  finalizeCompleted := false
  finalizationRounds := 0
  idleCounter := 0
  requestType := RequestType.NONE
  unscannedBytes := 0
  bytesAhead := 0
  bytesAllocated := 0
  oldGenCounter := 0
  observersAttached := true
  stubMode := StubMode.INCREMENTAL
  barrierActive := true
  gcRequested := false
  sweepingInProgress := false
  sweeperTasksRunning := false
  serializerEnabled := false
  inGC := false
  alwaysAllocate := false
  startCompactionOK := false
  shouldFinalizeEmbedder := true
  wrappers := 0
  retainedMaps := []
  disposedMaps := 0
  shouldReduceMemory := false
  shouldAbortIM := false
  flagConcurrent := false
  v8ConcurrentBuild := false
  flagIncremental := true
  flagNeverCompact := false
  flagConcurrentSweeping := false
  flagBlackAllocationF := true
  flagRetainMaps := 5
  flagMaxRounds := 3
  flagMinProgress := 32

/-- A large fixed array on a progress-bar chunk, already scanned up to
byte 32784, with plenty of worklist room. -/
def pbHeap : IMHeap 1 :=
  { baseHeap with
    sizeOf := fun _ => 70000
    hasProgressBar := fun _ => true
    progressBar := fun _ => 32784 }

/-- A grey object sitting on the worklist, ready to be drained. -/
def drainHeap : IMHeap 1 :=
  { baseHeap with worklist := [(0 : Fin 1)], color := fun _ => Color.Grey }

/-- A heap with ahead-of-schedule credit accumulated by background
tasks. -/
def creditHeap : IMHeap 1 :=
  { baseHeap with bytesAhead := 200000 }

/-- One uncleared retained-maps entry inside the disposed prefix. -/
def rmEntry : MapEntry 1 where
  cleared := false
  mapObj := 0
  age := 3
  constructorO := none
  prototypeO := none

/-- A heap whose retained-maps array holds `rmEntry` inside the
disposed prefix. -/
def rmHeap : IMHeap 1 :=
  { baseHeap with retainedMaps := [rmEntry], disposedMaps := 2 }

/-- Left-trimming state in a black-allocation regime: the object at
word 0 is grey, the word-4 destination already reads black. -/
def trimCexHeap : TrimHeap where
  bitmap := fun n => n == 0 || n == 4 || n == 5
  worklistT := []
  blackAllocationT := true
  flagConcurrentT := false
  stateT := IMState.MARKING

/-- Left-trimming state with a grey object at word 0 and a white
destination at word 4. -/
def trimWitHeap : TrimHeap where
  bitmap := fun n => n == 0
  worklistT := []
  blackAllocationT := false
  flagConcurrentT := false
  stateT := IMState.MARKING

/-- Post-scavenge state whose only worklist entry is an old-space
object on a sweep-to-iterate page that is externally grey and whose
map is the one-pointer filler map. -/
def scavCexHeap : ScavHeap where
  stateS := IMState.MARKING
  worklistS := [7]
  inFromSpace := fun _ => false
  inToSpace := fun _ => false
  forwardingS := fun _ => none
  sweepToIterate := fun n => n == 7
  externalGrey := fun n => n == 7
  mapOfS := fun _ => 3
  fillerMapS := 3

/-- Post-scavenge state with an ordinary surviving old-space entry. -/
def scavWitHeap : ScavHeap where
  stateS := IMState.MARKING
  worklistS := [5]
  inFromSpace := fun _ => false
  inToSpace := fun _ => false
  forwardingS := fun _ => none
  sweepToIterate := fun _ => false
  externalGrey := fun _ => false
  mapOfS := fun _ => 0
  fillerMapS := 3

/-- Agreement of `t` with `s` on all the fields that the marking
drain — mark-bit transitions, pushes, slot recording, progress-bar
updates — never writes.  Used to transport controller facts through
the worklist-processing functions. -/
structure StaticEq (s t : IMHeap N) : Prop where
  hcap : t.capacity = s.capacity
  hmapOf : t.mapOf = s.mapOf
  hfiller : t.isFillerO = s.isFillerO
  hsize : t.sizeOf = s.sizeOf
  hfields : t.fields = s.fields
  hpb : t.hasProgressBar = s.hasProgressBar
  hccb : t.v8ConcurrentBuild = s.v8ConcurrentBuild
  hstate : t.state = s.state
  hbytesAhead : t.bytesAhead = s.bytesAhead
  hfc : t.finalizeCompleted = s.finalizeCompleted
  hrounds : t.finalizationRounds = s.finalizationRounds
  hwrappers : t.wrappers = s.wrappers
  hretained : t.retainedMaps = s.retainedMaps
  hdisposed : t.disposedMaps = s.disposedMaps
  hsrm : t.shouldReduceMemory = s.shouldReduceMemory
  habort : t.shouldAbortIM = s.shouldAbortIM
  hfrm : t.flagRetainMaps = s.flagRetainMaps
  hfmr : t.flagMaxRounds = s.flagMaxRounds
  hfmp : t.flagMinProgress = s.flagMinProgress
  hfba : t.flagBlackAllocationF = s.flagBlackAllocationF
  hba : t.blackAllocation = s.blackAllocation
  hsfe : t.shouldFinalizeEmbedder = s.shouldFinalizeEmbedder
  hidle : t.idleCounter = s.idleCounter
  hconc : t.flagConcurrent = s.flagConcurrent

/-- `RestartIfNotMarking` only touches the controller state field. -/
@[simp]
theorem restartIfNotMarking_worklist (s : IMHeap N) :
    (restartIfNotMarking s).worklist = s.worklist := by
  unfold restartIfNotMarking; split <;> rfl

/-- `RestartIfNotMarking` leaves all colors unchanged. -/
@[simp]
theorem restartIfNotMarking_color (s : IMHeap N) :
    (restartIfNotMarking s).color = s.color := by
  unfold restartIfNotMarking; split <;> rfl

/-- `RestartIfNotMarking` leaves the slot log unchanged. -/
@[simp]
theorem restartIfNotMarking_recorded (s : IMHeap N) :
    (restartIfNotMarking s).recorded = s.recorded := by
  unfold restartIfNotMarking; split <;> rfl

/-- C9: `WhiteToGreyAndPush(o)` pushes `o` onto the marking worklist
and returns true exactly when the white-to-grey transition succeeds,
that is, when `o` was white; when `o` is already grey or black it
returns false and leaves the state — in particular the worklist —
unchanged, so this path pushes each object at most once per cycle by
color transition. -/
theorem whiteToGreyAndPush_spec (s : IMHeap N) (o : Fin N)
    (h : (s.color o).isImpossible = false) :
    ((whiteToGreyAndPush s o).2 = true ↔ (s.color o).isWhite = true) ∧
    ((whiteToGreyAndPush s o).2 = true →
      (whiteToGreyAndPush s o).1.worklist = s.worklist ++ [o] ∧
      (whiteToGreyAndPush s o).1.color o = Color.Grey) ∧
    ((whiteToGreyAndPush s o).2 = false → (whiteToGreyAndPush s o).1 = s) := by
  cases hc : s.color o <;>
    simp_all [whiteToGreyAndPush, Color.bit0, Color.bit1, Color.isWhite,
      Color.isImpossible, Color.ofBits, hc]

/-- C9 witness: on `baseHeap`, object 0 is white, so it is pushed. -/
theorem whiteToGreyAndPush_spec_witness :
    (baseHeap.color 0).isImpossible = false ∧
    ((whiteToGreyAndPush baseHeap 0).2 = true ↔
      (baseHeap.color 0).isWhite = true) :=
  ⟨by decide, (whiteToGreyAndPush_spec baseHeap 0 (by decide)).1⟩

/-- C1: for `RecordWriteSlow(obj, slot, value)`, the value is
transitioned from white to grey and pushed onto the marking worklist
exactly when recording is needed (concurrent marking is on or `obj` is
black) and `value` was white; and the slot is recorded with the
compacting collector exactly when recording is needed, the collector
is compacting, and the slot pointer is non-null (regardless of the
value's color).  The hypotheses are the function's own debug checks
that neither mark-bit pattern is the impossible one. -/
theorem recordWriteSlow_spec (s : IMHeap N) (obj : Fin N) (slot : Option Nat)
    (value : Fin N) (hobj : (s.color obj).isImpossible = false)
    (hval : (s.color value).isImpossible = false) :
    (((recordWriteSlow s obj slot value).worklist = s.worklist ++ [value] ∧
        ((recordWriteSlow s obj slot value).color value).isGrey = true) ↔
      ((s.flagConcurrent = true ∨ (s.color obj).isBlack = true) ∧
        (s.color value).isWhite = true)) ∧
    (¬((s.flagConcurrent = true ∨ (s.color obj).isBlack = true) ∧
        (s.color value).isWhite = true) →
      (recordWriteSlow s obj slot value).worklist = s.worklist ∧
      (recordWriteSlow s obj slot value).color = s.color) ∧
    (∀ sl, slot = some sl →
      ((recordWriteSlow s obj slot value).recorded =
          s.recorded ++ [(obj, sl, value)] ↔
        ((s.flagConcurrent = true ∨ (s.color obj).isBlack = true) ∧
          s.isCompacting = true))) ∧
    (¬((s.flagConcurrent = true ∨ (s.color obj).isBlack = true) ∧
        s.isCompacting = true ∧ slot.isSome = true) →
      (recordWriteSlow s obj slot value).recorded = s.recorded) := by
  by_cases hnr : s.flagConcurrent = true ∨ (s.color obj).isBlack = true <;>
    by_cases hcp : s.isCompacting = true <;>
    cases hv : s.color value <;>
    cases slot <;>
      simp_all [recordWriteSlow, baseRecordWrite, whiteToGreyAndPush,
        Color.bit0, Color.bit1, Color.isWhite, Color.isGrey,
        Color.isImpossible, Color.ofBits, Function.update]

/-- C1 witness: with concurrent marking on and compaction on, a
non-null slot is recorded. -/
theorem recordWriteSlow_spec_witness :
    (recordWriteSlow
        { baseHeap with flagConcurrent := true, isCompacting := true }
        0 (some 5) 0).recorded =
      ({ baseHeap with flagConcurrent := true, isCompacting := true } :
        IMHeap 1).recorded ++ [(0, 5, 0)] := by
  have h := recordWriteSlow_spec
    { baseHeap with flagConcurrent := true, isCompacting := true }
    0 (some 5) 0 (by decide) (by decide)
  exact (h.2.2.1 5 rfl).mpr (by decide)

/-- Blackness of a bit pair. -/
@[simp]
theorem ofBits_isBlack (b0 b1 : Bool) :
    (Color.ofBits b0 b1).isBlack = (b0 && b1) := by
  cases b0 <;> cases b1 <;> rfl

/-- Greyness of a bit pair. -/
@[simp]
theorem ofBits_isGrey (b0 b1 : Bool) :
    (Color.ofBits b0 b1).isGrey = (b0 && !b1) := by
  cases b0 <;> cases b1 <;> rfl

/-- Whiteness of a bit pair. -/
@[simp]
theorem ofBits_isWhite (b0 b1 : Bool) :
    (Color.ofBits b0 b1).isWhite = (!b0 && !b1) := by
  cases b0 <;> cases b1 <;> rfl

/-- Impossibility of a bit pair. -/
@[simp]
theorem ofBits_isImpossible (b0 b1 : Bool) :
    (Color.ofBits b0 b1).isImpossible = (!b0 && b1) := by
  cases b0 <;> cases b1 <;> rfl

/-- A bit pair equals `White` exactly when both bits are clear. -/
theorem ofBits_eq_white (b0 b1 : Bool) :
    Color.ofBits b0 b1 = Color.White ↔ b0 = false ∧ b1 = false := by
  cases b0 <;> cases b1 <;> simp [Color.ofBits]

/-- C2 (amended): left trimming transfers the color from `fromA` to
`toA` — whether or not the two bit pairs overlap — except that with
black allocation enabled and `toA` already reading black the function
returns without making `toA` grey.  If `fromA` was black, `toA` is
black afterwards; if `fromA` was grey and the black-allocation early
return does not fire, `toA` is grey afterwards and has been pushed
onto the marking worklist.  The hypotheses reflect the function's
debug-checked preconditions: a non-overlapping destination is a fresh
(white) bit pair, an overlapping one is not the impossible pattern. -/
theorem notifyLeftTrimming_color_transfer (s : TrimHeap) (fromA toA : Nat)
    (hno : fromA + 1 ≠ toA → colorAt s.bitmap toA = Color.White)
    (hovl : fromA + 1 = toA → (colorAt s.bitmap toA).isImpossible = false) :
    ((colorAt s.bitmap fromA).isBlack = true →
      (colorAt (notifyLeftTrimming s fromA toA).bitmap toA).isBlack = true) ∧
    ((colorAt s.bitmap fromA).isGrey = true →
      ¬(s.blackAllocationT = true ∧ (colorAt s.bitmap toA).isBlack = true) →
      (colorAt (notifyLeftTrimming s fromA toA).bitmap toA).isGrey = true ∧
      (notifyLeftTrimming s fromA toA).worklistT = s.worklistT ++ [toA]) := by
  by_cases hov : fromA + 1 = toA
  · subst hov
    have h1 : fromA + 1 + 1 ≠ fromA + 1 := by omega
    have h2 : fromA + 1 + 1 ≠ fromA := by omega
    have h3 : fromA + 1 ≠ fromA := by omega
    have hi := hovl rfl
    cases hBA : s.blackAllocationT <;>
      cases hCon : s.flagConcurrentT <;>
      cases hA : s.bitmap fromA <;>
      cases hB : s.bitmap (fromA + 1) <;>
      cases hC : s.bitmap (fromA + 1 + 1) <;>
        simp_all [notifyLeftTrimming, colorAt, markWhiteToGrey,
          markGreyToBlack, markWhiteToBlack, setBit, Function.update_apply,
          Color.ofBits, Color.isBlack, Color.isGrey, Color.isWhite,
          Color.isImpossible]
  · have hw := (ofBits_eq_white _ _).mp (hno hov)
    have h3 : toA + 1 ≠ toA := by omega
    by_cases hta : toA = fromA
    · cases hBA : s.blackAllocationT <;>
        cases hA : s.bitmap fromA <;>
        simp_all [notifyLeftTrimming, colorAt, markWhiteToGrey,
          markGreyToBlack, markWhiteToBlack, setBit, Function.update_apply,
          Color.ofBits, Color.isBlack, Color.isGrey, Color.isWhite,
          Color.isImpossible]
    · by_cases htb : toA + 1 = fromA
      · have h4 : toA ≠ fromA + 1 := fun h => hov h.symm
        cases hBA : s.blackAllocationT <;>
          cases hA : s.bitmap fromA <;>
          cases hB : s.bitmap (fromA + 1) <;>
          cases hCon : s.flagConcurrentT <;>
            simp_all [notifyLeftTrimming, colorAt, markWhiteToGrey,
              markGreyToBlack, markWhiteToBlack, setBit, Function.update_apply,
              Color.ofBits, Color.isBlack, Color.isGrey, Color.isWhite,
              Color.isImpossible]
      · have h4 : toA ≠ fromA + 1 := fun h => hov h.symm
        have h5 : toA + 1 ≠ fromA + 1 := by omega
        cases hBA : s.blackAllocationT <;>
          cases hA : s.bitmap fromA <;>
          cases hB : s.bitmap (fromA + 1) <;>
          cases hCon : s.flagConcurrentT <;>
            simp_all [notifyLeftTrimming, colorAt, markWhiteToGrey,
              markGreyToBlack, markWhiteToBlack, setBit, Function.update_apply,
              Color.ofBits, Color.isBlack, Color.isGrey, Color.isWhite,
              Color.isImpossible]

/-- C2 counterexample: with black allocation enabled and the
destination bit pair already black, left trimming of a grey object is
a no-op — `toA` is not grey afterwards and nothing is pushed — so the
color-transfer claim fails as stated. -/
theorem notifyLeftTrimming_blackAllocation_cex :
    (colorAt trimCexHeap.bitmap 0).isGrey = true ∧
    trimCexHeap.blackAllocationT = true ∧
    (colorAt (notifyLeftTrimming trimCexHeap 0 4).bitmap 4).isGrey = false ∧
    (notifyLeftTrimming trimCexHeap 0 4).worklistT = [] := by decide

/-- C2 witness: a grey object trimmed to a white, non-overlapping
destination makes the destination grey and pushes it. -/
theorem notifyLeftTrimming_color_transfer_witness :
    ((0 : Nat) + 1 ≠ 4 → colorAt trimWitHeap.bitmap 4 = Color.White) ∧
    ((colorAt (notifyLeftTrimming trimWitHeap 0 4).bitmap 4).isGrey = true ∧
      (notifyLeftTrimming trimWitHeap 0 4).worklistT =
        trimWitHeap.worklistT ++ [4]) :=
  ⟨by decide,
    (notifyLeftTrimming_color_transfer trimWitHeap 0 4 (by decide)
      (by decide)).2 (by decide) (by decide)⟩

/-- Inversion of the scavenge rewrite predicate: a surviving entry is
either the forwarding target of a from-space entry or the entry
itself, which then is not in from-space. -/
theorem updateEntry_some (h : ScavHeap) (a b : Nat)
    (hab : updateEntry h a = some b) :
    (h.inFromSpace a = true ∧ h.forwardingS a = some b) ∨
    (b = a ∧ h.inFromSpace a = false) := by
  unfold updateEntry at hab
  by_cases h1 : h.inFromSpace a = true <;>
    by_cases h2 : h.inToSpace a = true <;>
    by_cases h3 : h.sweepToIterate a = true <;>
    by_cases h4 : h.externalGrey a = true <;>
    by_cases h5 : h.mapOfS a = h.fillerMapS <;>
    cases hf : h.forwardingS a <;>
      simp_all

/-- C3 (amended): while marking is active, after
`UpdateMarkingWorklistAfterScavenge` no worklist entry points into
from-space (given the scavenger's guarantee that forwarding addresses
do not point into from-space); the worklist has been rewritten
pointwise by the update predicate; a from-space entry is rewritten to
its forwarding address and dropped when it has none; and an old-space
entry that is not on a sweep-to-iterate page is dropped when its map
is the one-pointer filler map (on a sweep-to-iterate page it is
instead kept exactly when externally grey). -/
theorem updateMarkingWorklistAfterScavenge_spec (h : ScavHeap)
    (hm : h.stateS = IMState.MARKING ∨ h.stateS = IMState.COMPLETE)
    (hfwd : ∀ o d, h.forwardingS o = some d → h.inFromSpace d = false) :
    (∀ o, o ∈ (updateMarkingWorklistAfterScavenge h).worklistS →
      h.inFromSpace o = false) ∧
    (updateMarkingWorklistAfterScavenge h).worklistS =
      h.worklistS.filterMap (updateEntry h) ∧
    (∀ o, h.inFromSpace o = true → updateEntry h o = h.forwardingS o) ∧
    (∀ o, h.inFromSpace o = false → h.inToSpace o = false →
      h.sweepToIterate o = false → h.mapOfS o = h.fillerMapS →
      updateEntry h o = none) ∧
    (∀ o, h.inFromSpace o = false → h.inToSpace o = false →
      h.sweepToIterate o = true →
      updateEntry h o = if h.externalGrey o then some o else none) := by
  have hlist : (updateMarkingWorklistAfterScavenge h).worklistS =
      h.worklistS.filterMap (updateEntry h) := by
    unfold updateMarkingWorklistAfterScavenge
    rw [if_pos hm]
  refine ⟨?_, hlist, ?_, ?_, ?_⟩
  · intro o ho
    rw [hlist] at ho
    rcases List.mem_filterMap.mp ho with ⟨a, _, ha⟩
    rcases updateEntry_some h a o ha with ⟨_, hf⟩ | ⟨rfl, hnf⟩
    · exact hfwd a o hf
    · exact hnf
  · intro o hf
    unfold updateEntry
    rw [if_pos hf]
    cases h.forwardingS o <;> rfl
  · intro o h1 h2 h3 h4
    simp [updateEntry, h1, h2, h3, h4]
  · intro o h1 h2 h3
    simp [updateEntry, h1, h2, h3]

/-- C3 counterexample: an old-space entry on a sweep-to-iterate page
whose map is the one-pointer filler map but which is externally grey
is kept, contradicting the claim that every old-space filler-map entry
is dropped. -/
theorem updateAfterScavenge_filler_kept_cex :
    scavCexHeap.stateS = IMState.MARKING ∧
    scavCexHeap.inFromSpace 7 = false ∧
    scavCexHeap.inToSpace 7 = false ∧
    scavCexHeap.mapOfS 7 = scavCexHeap.fillerMapS ∧
    (updateMarkingWorklistAfterScavenge scavCexHeap).worklistS = [7] := by
  decide

/-- C3 witness: on a concrete marking heap the rewrite equals the
filter-map of the update predicate. -/
theorem updateMarkingWorklistAfterScavenge_spec_witness :
    (updateMarkingWorklistAfterScavenge scavWitHeap).worklistS =
      scavWitHeap.worklistS.filterMap (updateEntry scavWitHeap) :=
  (updateMarkingWorklistAfterScavenge_spec scavWitHeap (Or.inl rfl)
    (fun o d hd => by simp [scavWitHeap] at hd)).2.1

/-- C8: `Stop` from any active state detaches the allocation
observers, leaves the record-write stubs in store-buffer-only mode and
the per-page incremental write-barrier flags deactivated (patching
them itself when marking; in `SWEEPING` they were never activated,
which is the hypothesis), clears any pending stack-guard GC request,
moves to `STOPPED`, resets `is_compacting_` and `black_allocation_`,
and leaves the contents of the marking worklist untouched. -/
theorem stop_spec (s : IMHeap N) (hact : s.state ≠ IMState.STOPPED)
    (hsweep : s.state = IMState.SWEEPING →
      s.stubMode = StubMode.STORE_BUFFER_ONLY ∧ s.barrierActive = false) :
    (stop s).observersAttached = false ∧
    (stop s).stubMode = StubMode.STORE_BUFFER_ONLY ∧
    (stop s).barrierActive = false ∧
    (stop s).gcRequested = false ∧
    (stop s).state = IMState.STOPPED ∧
    (stop s).isCompacting = false ∧
    (stop s).blackAllocation = false ∧
    (stop s).worklist = s.worklist ∧
    (stop s).bailout = s.bailout := by
  cases hs : s.state <;> simp_all [stop, IMHeap.isMarking]

/-- C8 witness: stopping `baseHeap` (which is in `MARKING`). -/
theorem stop_spec_witness :
    (stop baseHeap).state = IMState.STOPPED ∧
    (stop baseHeap).stubMode = StubMode.STORE_BUFFER_ONLY ∧
    (stop baseHeap).worklist = baseHeap.worklist := by
  have h := stop_spec baseHeap (by decide) (by decide)
  exact ⟨h.2.2.2.2.1, h.2.1, h.2.2.2.2.2.2.2.1⟩

/-- `StaticEq` is reflexive. -/
theorem StaticEq.refl' (s : IMHeap N) : StaticEq s s := by
  constructor <;> rfl

/-- `StaticEq` is transitive. -/
theorem StaticEq.trans' {s t u : IMHeap N} (h1 : StaticEq s t)
    (h2 : StaticEq t u) : StaticEq s u :=
  ⟨h2.hcap.trans h1.hcap, h2.hmapOf.trans h1.hmapOf,
    h2.hfiller.trans h1.hfiller, h2.hsize.trans h1.hsize,
    h2.hfields.trans h1.hfields, h2.hpb.trans h1.hpb,
    h2.hccb.trans h1.hccb, h2.hstate.trans h1.hstate,
    h2.hbytesAhead.trans h1.hbytesAhead, h2.hfc.trans h1.hfc,
    h2.hrounds.trans h1.hrounds, h2.hwrappers.trans h1.hwrappers,
    h2.hretained.trans h1.hretained, h2.hdisposed.trans h1.hdisposed,
    h2.hsrm.trans h1.hsrm, h2.habort.trans h1.habort,
    h2.hfrm.trans h1.hfrm, h2.hfmr.trans h1.hfmr,
    h2.hfmp.trans h1.hfmp, h2.hfba.trans h1.hfba,
    h2.hba.trans h1.hba, h2.hsfe.trans h1.hsfe,
    h2.hidle.trans h1.hidle, h2.hconc.trans h1.hconc⟩

/-- `WhiteToGreyAndPush` touches only the colors and the worklist. -/
theorem whiteToGreyAndPush_staticEq (s : IMHeap N) (o : Fin N) :
    StaticEq s (whiteToGreyAndPush s o).1 := by
  unfold whiteToGreyAndPush
  split <;> (constructor <;> rfl)

/-- `GreyToBlack` touches only the colors. -/
theorem greyToBlackObj_staticEq (s : IMHeap N) (o : Fin N) :
    StaticEq s (greyToBlackObj s o).1 := by
  unfold greyToBlackObj
  split <;> (constructor <;> rfl)

/-- An object that is white after `WhiteToGreyAndPush` was already
white before: colors only move away from white. -/
theorem whiteToGreyAndPush_white_backward (s : IMHeap N) (o x : Fin N)
    (h : (((whiteToGreyAndPush s o).1.color x)).isWhite = true) :
    (s.color x).isWhite = true := by
  unfold whiteToGreyAndPush at h
  split at h
  · exact h
  · by_cases hx : x = o
    · subst hx
      simp [Function.update_apply] at h
    · simpa [Function.update_apply, hx] using h

/-- The disabling condition of `RetainMaps` only reads fields that the
drain never writes. -/
theorem mapRetainingIsDisabled_eq_of_staticEq {s t : IMHeap N}
    (h : StaticEq s t) :
    mapRetainingIsDisabled t = mapRetainingIsDisabled s := by
  unfold mapRetainingIsDisabled
  rw [h.hsrm, h.habort, h.hfrm]

/-- A prototype that is an unmarked heap object after a push was
already one before. -/
theorem protoUnmarked_backward (s : IMHeap N) (o : Fin N) (e : MapEntry N)
    (h : protoUnmarked (whiteToGreyAndPush s o).1 e = true) :
    protoUnmarked s e = true := by
  unfold protoUnmarked at h ⊢
  cases hp : e.prototypeO with
  | none => rw [hp] at h; exact h
  | some p => rw [hp] at h; exact whiteToGreyAndPush_white_backward s o p h

/-- Per-entry aging behavior of the `RetainMaps` loop, at any starting
flattened index `i` and controller state `s`: a cleared entry is
untouched; an uncleared entry inside the disposed prefix has its age
reset to `FLAG_retain_maps_for_n_gc`; and an age can only drop (given
the age invariant `age ≤ FLAG_retain_maps_for_n_gc`) by exactly one,
for an entry past the prefix, with retaining enabled, a map that was
white and positive age, and an unmarked heap-object prototype. -/
theorem retainMapsGo_age_spec (l : List (MapEntry N)) :
    ∀ (i : Nat) (s : IMHeap N) (k : Nat) (e r : MapEntry N),
      l[k]? = some e → (retainMapsGo i l s).1[k]? = some r →
      (e.cleared = true → r = e) ∧
      (e.cleared = false → i + 2 * k < s.disposedMaps →
        r.age = s.flagRetainMaps) ∧
      (e.age ≤ s.flagRetainMaps → r.age < e.age →
        s.disposedMaps ≤ i + 2 * k ∧ mapRetainingIsDisabled s = false ∧
        (s.color e.mapObj).isWhite = true ∧ 0 < e.age ∧
        protoUnmarked s e = true ∧ r.age = e.age - 1) := by
  induction l with
  | nil => intro i s k e r he _; simp at he
  | cons e0 rest ih =>
    intro i s k e r he hr
    simp only [retainMapsGo] at hr
    by_cases hcl : e0.cleared = true
    · rw [if_pos hcl] at hr
      cases k with
      | zero =>
        simp at he hr
        subst he
        subst hr
        refine ⟨fun _ => rfl, fun hf _ => absurd hcl (by simp [hf]),
          fun _ hlt => absurd hlt (by simp)⟩
      | succ k =>
        simp only [List.getElem?_cons_succ] at he hr
        have h := ih (i + 2) s k e r he hr
        refine ⟨h.1, fun hf hd => h.2.1 hf (by omega), fun hage hlt => ?_⟩
        have h3 := h.2.2 hage hlt
        exact ⟨by omega, h3.2.1, h3.2.2.1, h3.2.2.2.1, h3.2.2.2.2.1,
          h3.2.2.2.2.2⟩
    · rw [if_neg hcl] at hr
      by_cases hcond : s.disposedMaps ≤ i ∧ ¬(mapRetainingIsDisabled s = true) ∧
          (s.color e0.mapObj).isWhite = true
      · rw [if_pos hcond] at hr
        by_cases hsr : shouldRetainMap s e0 e0.age = true
        · rw [if_pos hsr] at hr
          cases k with
          | zero =>
            simp at he hr
            subst he
            subst hr
            refine ⟨fun hc => absurd hc (by simp_all), fun _ hd => by omega,
              fun hage hlt => ?_⟩
            by_cases hdec : 0 < e0.age ∧
                protoUnmarked (whiteToGreyAndPush s e0.mapObj).1 e0 = true
            · rw [if_pos hdec] at hlt ⊢
              exact ⟨by omega, by simpa using hcond.2.1, hcond.2.2, hdec.1,
                protoUnmarked_backward s e0.mapObj e0 hdec.2, rfl⟩
            · rw [if_neg hdec] at hlt
              exact absurd hlt (by simp)
          | succ k =>
            simp only [List.getElem?_cons_succ] at he hr
            have hse : StaticEq s (whiteToGreyAndPush s e0.mapObj).1 :=
              whiteToGreyAndPush_staticEq s e0.mapObj
            have h := ih (i + 2) _ k e r he hr
            refine ⟨h.1, fun hf hd => ?_, fun hage hlt => ?_⟩
            · rw [← hse.hfrm]
              exact h.2.1 hf (by rw [hse.hdisposed]; omega)
            · have h3 := h.2.2 (by rw [hse.hfrm]; exact hage) hlt
              refine ⟨by rw [← hse.hdisposed]; omega, ?_, ?_, h3.2.2.2.1,
                ?_, h3.2.2.2.2.2⟩
              · rw [← mapRetainingIsDisabled_eq_of_staticEq hse]
                exact h3.2.1
              · exact whiteToGreyAndPush_white_backward s e0.mapObj e.mapObj
                  h3.2.2.1
              · exact protoUnmarked_backward s e0.mapObj e h3.2.2.2.2.1
        · rw [if_neg hsr] at hr
          cases k with
          | zero =>
            simp at he hr
            subst he
            subst hr
            refine ⟨fun hc => absurd hc (by simp_all), fun _ hd => by omega,
              fun hage hlt => ?_⟩
            by_cases hdec : 0 < e0.age ∧ protoUnmarked s e0 = true
            · rw [if_pos hdec] at hlt ⊢
              exact ⟨by omega, by simpa using hcond.2.1, hcond.2.2, hdec.1,
                hdec.2, rfl⟩
            · rw [if_neg hdec] at hlt
              exact absurd hlt (by simp)
          | succ k =>
            simp only [List.getElem?_cons_succ] at he hr
            have h := ih (i + 2) s k e r he hr
            refine ⟨h.1, fun hf hd => h.2.1 hf (by omega),
              fun hage hlt => ?_⟩
            have h3 := h.2.2 hage hlt
            exact ⟨by omega, h3.2.1, h3.2.2.1, h3.2.2.2.1, h3.2.2.2.2.1,
              h3.2.2.2.2.2⟩
      · rw [if_neg hcond] at hr
        cases k with
        | zero =>
          simp at he hr
          subst he
          subst hr
          refine ⟨fun hc => absurd hc (by simp_all), fun _ _ => rfl,
            fun hage hlt => ?_⟩
          simp at hlt
          omega
        | succ k =>
          simp only [List.getElem?_cons_succ] at he hr
          have h := ih (i + 2) s k e r he hr
          refine ⟨h.1, fun hf hd => h.2.1 hf (by omega),
            fun hage hlt => ?_⟩
          have h3 := h.2.2 hage hlt
          exact ⟨by omega, h3.2.1, h3.2.2.1, h3.2.2.2.1, h3.2.2.2.2.1,
            h3.2.2.2.2.2⟩

/-- The `RetainMaps` loop touches, besides the returned age list, only
colors and the worklist. -/
theorem retainMapsGo_staticEq (l : List (MapEntry N)) :
    ∀ (i : Nat) (s : IMHeap N), StaticEq s (retainMapsGo i l s).2 := by
  induction l with
  | nil => intro i s; exact StaticEq.refl' s
  | cons e rest ih =>
    intro i s
    simp only [retainMapsGo]
    split
    · exact ih (i + 2) s
    · by_cases hcond : s.disposedMaps ≤ i ∧
          ¬(mapRetainingIsDisabled s = true) ∧
          (s.color e.mapObj).isWhite = true
      · rw [if_pos hcond]
        by_cases hsr : shouldRetainMap s e e.age = true
        · rw [if_pos hsr]
          exact StaticEq.trans' (whiteToGreyAndPush_staticEq s e.mapObj)
            (ih (i + 2) _)
        · rw [if_neg hsr]
          exact ih (i + 2) s
      · rw [if_neg hcond]
        exact ih (i + 2) s

/-- Folding pushes over a root list touches only colors and the
worklist. -/
theorem foldl_wgp_staticEq (l : List (Fin N)) :
    ∀ s : IMHeap N,
      StaticEq s (l.foldl (fun t o => (whiteToGreyAndPush t o).1) s) := by
  induction l with
  | nil => intro s; exact StaticEq.refl' s
  | cons a t ih =>
    intro s
    exact StaticEq.trans' (whiteToGreyAndPush_staticEq s a) (ih _)

/-- `MarkRoots` touches only colors and the worklist. -/
theorem markRoots_staticEq (s : IMHeap N) : StaticEq s (markRoots s) :=
  foldl_wgp_staticEq s.rootsG s

/-- The controller fields that `RetainMaps` leaves unchanged. -/
theorem retainMaps_staticFields (t : IMHeap N) :
    (retainMaps t).finalizationRounds = t.finalizationRounds ∧
    (retainMaps t).finalizeCompleted = t.finalizeCompleted ∧
    (retainMaps t).flagMaxRounds = t.flagMaxRounds ∧
    (retainMaps t).flagMinProgress = t.flagMinProgress ∧
    (retainMaps t).wrappers = t.wrappers := by
  have hgo := retainMapsGo_staticEq t.retainedMaps 0 t
  exact ⟨hgo.hrounds, hgo.hfc, hgo.hfmr, hgo.hfmp, hgo.hwrappers⟩

/-- C6: `RetainMaps` never decreases the stored age of an uncleared
entry inside the disposed-maps prefix — such an entry's age is reset
to `FLAG_retain_maps_for_n_gc` (which, under the age invariant, does
not decrease it); and an age decrease happens only for an entry at or
past that prefix, with map retaining enabled, a white map, a positive
age, and an unmarked heap-object prototype, and is then exactly a
decrement. -/
theorem retainMaps_age_spec (s : IMHeap N) (k : Nat) (e r : MapEntry N)
    (he : s.retainedMaps[k]? = some e)
    (hr : (retainMaps s).retainedMaps[k]? = some r)
    (hage : e.age ≤ s.flagRetainMaps) :
    (e.cleared = false → 2 * k < s.disposedMaps →
      r.age = s.flagRetainMaps ∧ e.age ≤ r.age) ∧
    (r.age < e.age →
      s.disposedMaps ≤ 2 * k ∧ mapRetainingIsDisabled s = false ∧
      (s.color e.mapObj).isWhite = true ∧ 0 < e.age ∧
      protoUnmarked s e = true ∧ r.age = e.age - 1) := by
  have hr' : (retainMapsGo 0 s.retainedMaps s).1[k]? = some r := hr
  have h := retainMapsGo_age_spec s.retainedMaps 0 s k e r he hr'
  refine ⟨fun hf hd => ?_, fun hlt => ?_⟩
  · have hzf := h.2.1 hf (by omega)
    exact ⟨hzf, by omega⟩
  · have h3 := h.2.2 hage hlt
    exact ⟨by omega, h3.2.1, h3.2.2.1, h3.2.2.2.1, h3.2.2.2.2.1,
      h3.2.2.2.2.2⟩

/-- C6 witness: the entry of `rmHeap` sits inside the disposed prefix
and is reset to the maximal age 5, not below its age 3. -/
theorem retainMaps_age_spec_witness :
    ({ rmEntry with age := 5 } : MapEntry 1).age = rmHeap.flagRetainMaps ∧
    rmEntry.age ≤ ({ rmEntry with age := 5 } : MapEntry 1).age :=
  (retainMaps_age_spec rmHeap 0 rmEntry { rmEntry with age := 5 }
    (by decide) (by decide) (by decide)).1 (by decide) (by decide)

/-- C5: `FinalizeIncrementally` increments the finalization round
counter; `RetainMaps` runs exactly when the round counter was zero at
entry; and — from an entry state where finalization is not yet
completed, the function's debug-checked precondition —
`finalize_marking_completed_` ends up true exactly when the
incremented round count reaches the maximum number of rounds or the
measured marking progress (worklist size plus cached wrapper count)
is below the minimum-progress threshold. -/
theorem finalizeIncrementally_spec (s : IMHeap N)
    (hfc : s.finalizeCompleted = false) :
    (finalizeIncrementally s).finalizationRounds =
      s.finalizationRounds + 1 ∧
    (s.finalizationRounds ≠ 0 →
      (finalizeIncrementally s).retainedMaps = s.retainedMaps) ∧
    (s.finalizationRounds = 0 →
      (finalizeIncrementally s).retainedMaps =
        (retainMaps (markRoots s)).retainedMaps) ∧
    ((finalizeIncrementally s).finalizeCompleted = true ↔
      (s.flagMaxRounds ≤ s.finalizationRounds + 1 ∨
        measuredProgress s < s.flagMinProgress)) := by
  have hm := markRoots_staticEq s
  have hst := retainMaps_staticFields (markRoots s)
  simp only [finalizeIncrementally, measuredProgress]
  by_cases h0 : (markRoots s).finalizationRounds = 0
  · have hs0 : s.finalizationRounds = 0 := by rw [← hm.hrounds]; exact h0
    rw [if_pos h0]
    have hfc2 : (retainMaps (markRoots s)).finalizeCompleted = false := by
      rw [hst.2.1, hm.hfc]; exact hfc
    refine ⟨?_, fun hne => absurd hs0 hne, fun _ => ?_, ?_⟩
    · split <;> simp [hst.1, hm.hrounds]
    · split <;> rfl
    · rw [hst.1, hm.hrounds, hst.2.2.1, hm.hfmr, hst.2.2.2.1, hm.hfmp,
        hst.2.2.2.2, hm.hwrappers, hfc2]
      split_ifs <;> simp_all
  · have hs0 : s.finalizationRounds ≠ 0 := by rw [← hm.hrounds]; exact h0
    rw [if_neg h0]
    refine ⟨?_, fun _ => ?_, fun heq => absurd heq hs0, ?_⟩
    · split <;> simp [hm.hrounds]
    · split <;> simp [hm.hretained]
    · rw [hm.hrounds, hm.hfmr, hm.hfmp, hm.hwrappers, hm.hfc, hfc]
      split_ifs <;> simp_all

/-- C5 witness: finalizing `baseHeap` once bumps the round counter. -/
theorem finalizeIncrementally_spec_witness :
    (finalizeIncrementally baseHeap).finalizationRounds =
      baseHeap.finalizationRounds + 1 :=
  (finalizeIncrementally_spec baseHeap (by decide)).1

/-- Visiting one slot touches only colors, the worklist and the slot
log. -/
theorem visitSlot_staticEq (s : IMHeap N) (host : Fin N) (off : Nat) :
    StaticEq s (visitSlot s host off) := by
  unfold visitSlot
  split
  · exact StaticEq.trans' (by constructor <;> rfl)
      (whiteToGreyAndPush_staticEq _ _)
  · exact StaticEq.refl' s

/-- A push can only lengthen the worklist. -/
theorem whiteToGreyAndPush_len (s : IMHeap N) (o : Fin N) :
    s.worklist.length ≤ (whiteToGreyAndPush s o).1.worklist.length := by
  unfold whiteToGreyAndPush
  split
  · exact Nat.le_refl _
  · simp

/-- Visiting one slot can only lengthen the worklist. -/
theorem visitSlot_len (s : IMHeap N) (host : Fin N) (off : Nat) :
    s.worklist.length ≤ (visitSlot s host off).worklist.length := by
  unfold visitSlot
  split
  · rename_i target heq
    exact whiteToGreyAndPush_len
      { s with recorded := s.recorded ++ [(host, off, target)] } target
  · exact Nat.le_refl _

/-- Visiting one slot does not touch the incomplete-scan report. -/
theorem visitSlot_unscanned (s : IMHeap N) (host : Fin N) (off : Nat) :
    (visitSlot s host off).unscannedBytes = s.unscannedBytes := by
  unfold visitSlot whiteToGreyAndPush
  split <;> (try split) <;> rfl

/-- A pointer-range visit touches only colors, the worklist and the
slot log. -/
theorem foldl_visitSlot_staticEq (host : Fin N) (offs : List Nat) :
    ∀ s : IMHeap N,
      StaticEq s (offs.foldl (fun t off => visitSlot t host off) s) := by
  induction offs with
  | nil => intro s; exact StaticEq.refl' s
  | cons a t ih =>
    intro s
    exact StaticEq.trans' (visitSlot_staticEq s host a) (ih _)

/-- A pointer-range visit can only lengthen the worklist. -/
theorem foldl_visitSlot_len (host : Fin N) (offs : List Nat) :
    ∀ s : IMHeap N,
      s.worklist.length ≤
        (offs.foldl (fun t off => visitSlot t host off) s).worklist.length := by
  induction offs with
  | nil => intro s; exact Nat.le_refl _
  | cons a t ih =>
    intro s
    exact Nat.le_trans (visitSlot_len s host a) (ih _)

/-- A pointer-range visit does not touch the incomplete-scan report. -/
theorem foldl_visitSlot_unscanned (host : Fin N) (offs : List Nat) :
    ∀ s : IMHeap N,
      (offs.foldl (fun t off => visitSlot t host off) s).unscannedBytes =
        s.unscannedBytes := by
  induction offs with
  | nil => intro s; rfl
  | cons a t ih =>
    intro s
    exact (ih _).trans (visitSlot_unscanned s host a)

/-- `VisitPointers` touches only colors, the worklist and the slot
log. -/
theorem visitPointers_staticEq (s : IMHeap N) (host : Fin N) (a b : Nat) :
    StaticEq s (visitPointers s host a b) :=
  foldl_visitSlot_staticEq host (offsetsList a b) s

/-- `VisitPointers` can only lengthen the worklist. -/
theorem visitPointers_len (s : IMHeap N) (host : Fin N) (a b : Nat) :
    s.worklist.length ≤ (visitPointers s host a b).worklist.length :=
  foldl_visitSlot_len host (offsetsList a b) s

/-- `VisitPointers` does not touch the incomplete-scan report. -/
theorem visitPointers_unscanned (s : IMHeap N) (host : Fin N) (a b : Nat) :
    (visitPointers s host a b).unscannedBytes = s.unscannedBytes :=
  foldl_visitSlot_unscanned host (offsetsList a b) s

/-- The chunk loop touches only colors, the worklist and the slot
log. -/
theorem scanLoop_staticEq (host : Fin N) (size : Nat) :
    ∀ (fuel st en : Nat) (s : IMHeap N),
      StaticEq s (scanLoop host size fuel st en s).2 := by
  intro fuel
  induction fuel with
  | zero => intro st en s; exact StaticEq.refl' s
  | succ fuel ih =>
    intro st en s
    simp only [scanLoop]
    split
    · exact StaticEq.trans' (visitPointers_staticEq s host st en) (ih _ _ _)
    · exact visitPointers_staticEq s host st en

/-- The chunk loop can only lengthen the worklist. -/
theorem scanLoop_len (host : Fin N) (size : Nat) :
    ∀ (fuel st en : Nat) (s : IMHeap N),
      s.worklist.length ≤ (scanLoop host size fuel st en s).2.worklist.length := by
  intro fuel
  induction fuel with
  | zero => intro st en s; exact Nat.le_refl _
  | succ fuel ih =>
    intro st en s
    simp only [scanLoop]
    split
    · exact Nat.le_trans (visitPointers_len s host st en) (ih _ _ _)
    · exact visitPointers_len s host st en

/-- The chunk loop does not touch the incomplete-scan report. -/
theorem scanLoop_unscanned (host : Fin N) (size : Nat) :
    ∀ (fuel st en : Nat) (s : IMHeap N),
      (scanLoop host size fuel st en s).2.unscannedBytes = s.unscannedBytes := by
  intro fuel
  induction fuel with
  | zero => intro st en s; rfl
  | succ fuel ih =>
    intro st en s
    simp only [scanLoop]
    split
    · exact (ih _ _ _).trans (visitPointers_unscanned s host st en)
    · exact visitPointers_unscanned s host st en

/-- Fullness is preserved by any drain step that only appends to the
worklist and does not touch the capacity. -/
theorem isFull_mono {s t : IMHeap N} (hcap : t.capacity = s.capacity)
    (hlen : s.worklist.length ≤ t.worklist.length)
    (h : isFull s = true) : isFull t = true := by
  simp only [isFull, decide_eq_true_eq] at h ⊢
  rw [hcap]
  exact Nat.le_trans h hlen

/-- Bounds on the offset returned by the chunk loop: it is at least
the end of the first chunk (when any fuel is provided), at least the
starting offset, and at most the object size. -/
theorem scanLoop_bounds (host : Fin N) (size : Nat) :
    ∀ (fuel st en : Nat) (s : IMHeap N), st ≤ en → en ≤ size →
      ((scanLoop host size fuel st en s).1 ≤ size ∧
        st ≤ (scanLoop host size fuel st en s).1 ∧
        (fuel ≠ 0 → en ≤ (scanLoop host size fuel st en s).1)) := by
  intro fuel
  induction fuel with
  | zero =>
    intro st en s h1 h2
    exact ⟨Nat.le_trans h1 h2, Nat.le_refl _, fun h => absurd rfl h⟩
  | succ fuel ih =>
    intro st en s h1 h2
    simp only [scanLoop]
    split
    · rename_i hcont
      have h3 : en ≤ min size (en + kProgressBarScanningChunk) :=
        Nat.le_min.mpr ⟨Nat.le_of_lt hcont.2, Nat.le_add_right _ _⟩
      have h4 := ih en (min size (en + kProgressBarScanningChunk))
        (visitPointers s host st en) h3 (Nat.min_le_left _ _)
      exact ⟨h4.1, Nat.le_trans h1 h4.2.1, fun _ => h4.2.1⟩
    · exact ⟨h2, h1, fun _ => Nat.le_refl _⟩

/-- If the chunk loop scans past the first chunk, the worklist was —
and hence still is — full. -/
theorem scanLoop_exact (host : Fin N) (size : Nat) (fuel st en : Nat)
    (s : IMHeap N) (h1 : st < en) (h2 : en ≤ size) (h3 : size - st ≤ fuel) :
    (scanLoop host size fuel st en s).1 = en ∨
      isFull (scanLoop host size fuel st en s).2 = true := by
  cases fuel with
  | zero => omega
  | succ fuel =>
    simp only [scanLoop]
    split
    · rename_i hcont
      right
      exact isFull_mono
        (scanLoop_staticEq host size fuel en
          (min size (en + kProgressBarScanningChunk)) _).hcap
        (scanLoop_len host size fuel en
          (min size (en + kProgressBarScanningChunk)) _)
        hcont.1
    · left; rfl

/-- Behavior of the chunked scan started by `VisitFixedArray` from any
post-re-push state `t`: the returned offset covers at least the first
32 KiB chunk and at most the object, going past the first chunk only
with a full worklist, and the scan itself never touches the
incomplete-scan report. -/
theorem scanChunk_spec (t : IMHeap N) (obj : Fin N) (size start0 : Nat)
    (h0 : start0 < size) :
    (min size (start0 + kProgressBarScanningChunk) ≤
        (scanLoop obj size size start0
          (min size (start0 + kProgressBarScanningChunk)) t).1 ∧
      (scanLoop obj size size start0
          (min size (start0 + kProgressBarScanningChunk)) t).1 ≤ size) ∧
    ((scanLoop obj size size start0
          (min size (start0 + kProgressBarScanningChunk)) t).1 ≠
        min size (start0 + kProgressBarScanningChunk) →
      isFull (scanLoop obj size size start0
          (min size (start0 + kProgressBarScanningChunk)) t).2 = true) ∧
    (scanLoop obj size size start0
        (min size (start0 + kProgressBarScanningChunk)) t).2.unscannedBytes =
      t.unscannedBytes := by
  have hch : 0 < kProgressBarScanningChunk := by decide
  have hlt : start0 < min size (start0 + kProgressBarScanningChunk) :=
    Nat.lt_min.mpr ⟨h0, Nat.lt_add_of_pos_right hch⟩
  obtain ⟨hu1, hu2, hu3⟩ := scanLoop_bounds obj size size start0
    (min size (start0 + kProgressBarScanningChunk)) t
    (Nat.le_of_lt hlt) (Nat.min_le_left _ _)
  have hex := scanLoop_exact obj size size start0
    (min size (start0 + kProgressBarScanningChunk)) t hlt
    (Nat.min_le_left _ _) (Nat.sub_le _ _)
  refine ⟨⟨hu3 (by omega), hu1⟩, fun hne => ?_,
    scanLoop_unscanned obj size size start0 _ t⟩
  rcases hex with h | h
  · exact absurd h hne
  · exact h

/-- C4 (amended): visiting a fixed array on a `HAS_PROGRESS_BAR` chunk
whose scan start `max(body_start, progress_bar)` lies below the object
size scans a single 32 KiB chunk from that start — the progress bar
ends up at `min(size, start + 32 KiB)` unless the worklist is full, in
which case it may advance further (up to the object size) —, updates
the progress bar to the end of the scanned region, and on an
incomplete scan reports `object_size - (new_offset - start)` unscanned
bytes, that is, the object size minus the bytes scanned in this visit
(not `object_size - start`). -/
theorem visitFixedArray_progress_spec (s : IMHeap N) (obj : Fin N)
    (hpb : s.hasProgressBar obj = true)
    (hstart : max kStartOffset (s.progressBar obj) < s.sizeOf obj) :
    ((min (s.sizeOf obj)
          (max kStartOffset (s.progressBar obj) + kProgressBarScanningChunk) ≤
        (visitFixedArray s obj).2.progressBar obj ∧
      (visitFixedArray s obj).2.progressBar obj ≤ s.sizeOf obj) ∧
    ((visitFixedArray s obj).2.progressBar obj ≠
        min (s.sizeOf obj)
          (max kStartOffset (s.progressBar obj) + kProgressBarScanningChunk) →
      isFull (visitFixedArray s obj).2 = true) ∧
    (visitFixedArray s obj).2.unscannedBytes =
      (if (visitFixedArray s obj).2.progressBar obj < s.sizeOf obj then
        s.sizeOf obj - ((visitFixedArray s obj).2.progressBar obj -
          max kStartOffset (s.progressBar obj))
      else s.unscannedBytes)) := by
  simp only [visitFixedArray]
  rw [if_pos hpb, if_pos hstart]
  by_cases hb : s.v8ConcurrentBuild = true
  · rw [if_pos hb]
    have h := scanChunk_spec { s with bailout := s.bailout ++ [obj] } obj
      (s.sizeOf obj) (max kStartOffset (s.progressBar obj)) hstart
    generalize hq : scanLoop obj (s.sizeOf obj) (s.sizeOf obj)
        (max kStartOffset (s.progressBar obj))
        (min (s.sizeOf obj)
          (max kStartOffset (s.progressBar obj) + kProgressBarScanningChunk))
        { s with bailout := s.bailout ++ [obj] } = pr
    rw [hq] at h
    obtain ⟨⟨hA, hB⟩, hC, hD⟩ := h
    by_cases hend : pr.1 < s.sizeOf obj <;>
      [rw [if_pos hend]; rw [if_neg hend]] <;>
      refine ⟨⟨?_, ?_⟩, fun hne => ?_, ?_⟩ <;>
      simp_all [Function.update_apply, isFull] <;>
      rw [if_neg (by omega)]
  · rw [if_neg hb]
    have h := scanChunk_spec { s with worklist := s.worklist ++ [obj] } obj
      (s.sizeOf obj) (max kStartOffset (s.progressBar obj)) hstart
    generalize hq : scanLoop obj (s.sizeOf obj) (s.sizeOf obj)
        (max kStartOffset (s.progressBar obj))
        (min (s.sizeOf obj)
          (max kStartOffset (s.progressBar obj) + kProgressBarScanningChunk))
        { s with worklist := s.worklist ++ [obj] } = pr
    rw [hq] at h
    obtain ⟨⟨hA, hB⟩, hC, hD⟩ := h
    by_cases hend : pr.1 < s.sizeOf obj <;>
      [rw [if_pos hend]; rw [if_neg hend]] <;>
      refine ⟨⟨?_, ?_⟩, fun hne => ?_, ?_⟩ <;>
      simp_all [Function.update_apply, isFull] <;>
      rw [if_neg (by omega)]

/-- C4 counterexample: on a 70000-byte array already scanned to byte
32784, one visit scans the chunk `[32784, 65552)` and reports
`70000 - (65552 - 32784) = 37232` unscanned bytes — not
`object_size - already_scanned_offset = 70000 - 32784 = 37216` as the
claim states. -/
theorem foldl_visitSlot_of_none (host : Fin N) (offs : List Nat) :
    ∀ s : IMHeap N, (∀ off, s.fields host off = none) →
      offs.foldl (fun t off => visitSlot t host off) s = s := by
  induction offs with
  | nil => intro s _; rfl
  | cons a t ih =>
    intro s hf
    have h1 : visitSlot s host a = s := by
      unfold visitSlot
      rw [hf a]
    rw [List.foldl_cons, h1, ih s hf]

/-- The chunk loop stops after its first iteration when the worklist
did not fill up or the chunk reached the end of the object. -/
theorem scanLoop_one (host : Fin N) (size fuel st en : Nat) (s : IMHeap N)
    (h : ¬(isFull (visitPointers s host st en) = true ∧ en < size)) :
    scanLoop host size (fuel + 1) st en s = (en, visitPointers s host st en) := by
  simp only [scanLoop]
  rw [if_neg h]

/-- The fields `VisitFixedArray` produces on the incomplete
progress-bar path of a non-concurrent build, in terms of the chunk
loop's result. -/
theorem visitFixedArray_fields (s : IMHeap N) (obj : Fin N)
    (h1 : s.hasProgressBar obj = true)
    (h2 : max kStartOffset (s.progressBar obj) < s.sizeOf obj)
    (h3 : s.v8ConcurrentBuild = false) (pr : Nat × IMHeap N)
    (hpr : scanLoop obj (s.sizeOf obj) (s.sizeOf obj)
        (max kStartOffset (s.progressBar obj))
        (min (s.sizeOf obj)
          (max kStartOffset (s.progressBar obj) + kProgressBarScanningChunk))
        { s with worklist := s.worklist ++ [obj] } = pr)
    (hlt : pr.1 < s.sizeOf obj) :
    (visitFixedArray s obj).2.progressBar obj = pr.1 ∧
    (visitFixedArray s obj).2.unscannedBytes =
      s.sizeOf obj - (pr.1 - max kStartOffset (s.progressBar obj)) := by
  simp only [visitFixedArray]
  rw [if_pos h1, if_pos h2,
    if_neg (show ¬(s.v8ConcurrentBuild = true) from by simp [h3]), hpr,
    if_pos hlt]
  simp [Function.update_apply]

/-- C4 counterexample: on a 70000-byte array already scanned to byte
32784 (all slots empty, worklist far from full), one visit scans the
chunk `[32784, 65552)` and reports `70000 - (65552 - 32784) = 37232`
unscanned bytes — not `object_size - already_scanned_offset =
70000 - 32784 = 37216` as the claim states. -/
theorem visitFixedArray_report_cex :
    pbHeap.hasProgressBar 0 = true ∧
    pbHeap.progressBar 0 < pbHeap.sizeOf 0 ∧
    (visitFixedArray pbHeap 0).2.progressBar 0 = 65552 ∧
    (visitFixedArray pbHeap 0).2.unscannedBytes = 37232 ∧
    pbHeap.sizeOf 0 - max kStartOffset (pbHeap.progressBar 0) = 37216 ∧
    (37232 : Nat) ≠ 37216 := by
  have hvp : visitPointers
      { pbHeap with worklist := pbHeap.worklist ++ [(0 : Fin 1)] } 0
      32784 65552 =
      { pbHeap with worklist := pbHeap.worklist ++ [(0 : Fin 1)] } :=
    foldl_visitSlot_of_none 0 (offsetsList 32784 65552) _ (fun _ => rfl)
  have hscan : scanLoop (0 : Fin 1) 70000 70000 32784 65552
      { pbHeap with worklist := pbHeap.worklist ++ [(0 : Fin 1)] } =
      (65552, { pbHeap with worklist := pbHeap.worklist ++ [(0 : Fin 1)] }) := by
    rw [show (70000 : Nat) = 69999 + 1 from rfl, scanLoop_one]
    · rw [hvp]
    · rw [hvp]
      decide
  have hf := visitFixedArray_fields pbHeap 0 rfl (by decide) rfl
    (65552, { pbHeap with worklist := pbHeap.worklist ++ [(0 : Fin 1)] })
    hscan (by decide)
  refine ⟨rfl, by decide, hf.1, ?_, by decide, by decide⟩
  rw [hf.2]
  decide

/-- C4 witness: the single-chunk scan bounds on the concrete array. -/
theorem visitFixedArray_progress_spec_witness :
    min (pbHeap.sizeOf 0)
        (max kStartOffset (pbHeap.progressBar 0) + kProgressBarScanningChunk) ≤
      (visitFixedArray pbHeap 0).2.progressBar 0 ∧
    (visitFixedArray pbHeap 0).2.progressBar 0 ≤ pbHeap.sizeOf 0 :=
  (visitFixedArray_progress_spec pbHeap 0 (by decide) (by decide)).1

/-- Counting not-yet-pushed objects through a single color update. -/
theorem whiteCount_update_color (f : Fin N → Color) (o : Fin N) (c : Color) :
    (Finset.univ.sum fun x => colorWeight (Function.update f o c x)) +
      colorWeight (f o) =
    (Finset.univ.sum fun x => colorWeight (f x)) + colorWeight c := by
  have h1 : (fun x => colorWeight (Function.update f o c x)) =
      Function.update (fun x => colorWeight (f x)) o (colorWeight c) := by
    funext x
    exact Function.apply_update (fun _ v => colorWeight v) f o c x
  have h2 : (Finset.univ.sum fun x => colorWeight (f x)) =
      colorWeight (f o) +
        ((Finset.univ.erase o).sum fun x => colorWeight (f x)) :=
    (Finset.add_sum_erase _ _ (Finset.mem_univ o)).symm
  rw [h1, Finset.sum_update_of_mem (Finset.mem_univ o), h2, Finset.erase_eq]
  omega

/-- `whiteCount` only depends on the colors. -/
theorem whiteCount_congr {s t : IMHeap N} (h : t.color = s.color) :
    whiteCount t = whiteCount s := by
  unfold whiteCount
  rw [h]

/-- `pbCount` only depends on the progress-bar layout fields. -/
theorem pbCount_congr {s t : IMHeap N} (h1 : t.hasProgressBar = s.hasProgressBar)
    (h2 : t.sizeOf = s.sizeOf) (h3 : t.progressBar = s.progressBar) :
    pbCount t = pbCount s := by
  unfold pbCount chunksLeft
  rw [h1, h2, h3]

/-- Pending-chunk accounting through a single progress-bar update. -/
theorem pbCount_update {s t : IMHeap N} (o : Fin N) (v : Nat)
    (h1 : t.hasProgressBar = s.hasProgressBar) (h2 : t.sizeOf = s.sizeOf)
    (h3 : t.progressBar = Function.update s.progressBar o v) :
    pbCount t + chunksLeft s o =
      pbCount s +
        (if s.hasProgressBar o = true then
          (s.sizeOf o - v + kProgressBarScanningChunk - 1) /
            kProgressBarScanningChunk
        else 0) := by
  unfold pbCount
  have hfun : (fun x => chunksLeft t x) =
      Function.update (fun x => chunksLeft s x) o
        (if s.hasProgressBar o = true then
          (s.sizeOf o - v + kProgressBarScanningChunk - 1) /
            kProgressBarScanningChunk
        else 0) := by
    funext x
    by_cases hx : x = o
    · subst hx
      simp [chunksLeft, h1, h2, h3]
    · simp [chunksLeft, Function.update_apply, hx, h1, h2, h3]
  have h4 : (Finset.univ.sum fun x => chunksLeft t x) =
      (if s.hasProgressBar o = true then
        (s.sizeOf o - v + kProgressBarScanningChunk - 1) /
          kProgressBarScanningChunk
      else 0) + ((Finset.univ.erase o).sum fun x => chunksLeft s x) := by
    rw [show (fun x => chunksLeft t x) = _ from hfun,
      Finset.sum_update_of_mem (Finset.mem_univ o), Finset.erase_eq]
  have h5 : (Finset.univ.sum fun x => chunksLeft s x) =
      chunksLeft s o + ((Finset.univ.erase o).sum fun x => chunksLeft s x) :=
    (Finset.add_sum_erase _ _ (Finset.mem_univ o)).symm
  rw [h4, h5, Finset.erase_eq]
  omega

/-- Combine the two measure components into the full drain measure. -/
theorem measureG_le_of_parts {s t : IMHeap N}
    (h : 2 * whiteCount t + worklistSize t ≤ 2 * whiteCount s + worklistSize s)
    (hpb : pbCount t = pbCount s) : measureG t ≤ measureG s := by
  unfold measureG
  omega

/-- A push strictly pays for the queue entry it creates: the measure
component `2·whites + queued` never grows. -/
theorem whiteToGreyAndPush_measure (s : IMHeap N) (o : Fin N) :
    2 * whiteCount (whiteToGreyAndPush s o).1 +
      worklistSize (whiteToGreyAndPush s o).1 ≤
      2 * whiteCount s + worklistSize s ∧
    pbCount (whiteToGreyAndPush s o).1 = pbCount s := by
  unfold whiteToGreyAndPush
  split
  · exact ⟨Nat.le_refl _, rfl⟩
  · rename_i hbit
    refine ⟨?_, pbCount_congr rfl rfl rfl⟩
    have hw := whiteCount_update_color s.color o
      (Color.ofBits true (s.color o).bit1)
    have h0 : colorWeight (s.color o) = 1 := by
      simp [colorWeight, hbit]
    have h1 : colorWeight (Color.ofBits true (s.color o).bit1) = 0 := by
      cases hb : (s.color o).bit1 <;> simp [colorWeight, Color.ofBits, Color.bit0]
    simp only [whiteCount, worklistSize, List.length_append,
      List.length_cons, List.length_nil] at hw ⊢
    omega

/-- Blackening a grey object leaves the measure components alone. -/
theorem greyToBlackObj_measure (s : IMHeap N) (o : Fin N) :
    2 * whiteCount (greyToBlackObj s o).1 +
      worklistSize (greyToBlackObj s o).1 ≤
      2 * whiteCount s + worklistSize s ∧
    pbCount (greyToBlackObj s o).1 = pbCount s := by
  unfold greyToBlackObj
  split
  · rename_i hcond
    refine ⟨?_, pbCount_congr rfl rfl rfl⟩
    have hw := whiteCount_update_color s.color o Color.Black
    have h0 : colorWeight (s.color o) = 0 := by
      simp [colorWeight, hcond.1]
    have h1 : colorWeight Color.Black = 0 := rfl
    simp only [whiteCount, worklistSize] at hw ⊢
    omega
  · exact ⟨Nat.le_refl _, rfl⟩

/-- Visiting one slot never grows the measure components. -/
theorem visitSlot_measure (s : IMHeap N) (host : Fin N) (off : Nat) :
    2 * whiteCount (visitSlot s host off) + worklistSize (visitSlot s host off) ≤
      2 * whiteCount s + worklistSize s ∧
    pbCount (visitSlot s host off) = pbCount s := by
  unfold visitSlot
  split
  · rename_i target heq
    have h := whiteToGreyAndPush_measure
      { s with recorded := s.recorded ++ [(host, off, target)] } target
    exact ⟨h.1, h.2⟩
  · exact ⟨Nat.le_refl _, rfl⟩

/-- A pointer-range visit never grows the measure components. -/
theorem foldl_visitSlot_measure (host : Fin N) (offs : List Nat) :
    ∀ s : IMHeap N,
      2 * whiteCount (offs.foldl (fun t off => visitSlot t host off) s) +
        worklistSize (offs.foldl (fun t off => visitSlot t host off) s) ≤
        2 * whiteCount s + worklistSize s ∧
      pbCount (offs.foldl (fun t off => visitSlot t host off) s) = pbCount s := by
  induction offs with
  | nil => intro s; exact ⟨Nat.le_refl _, rfl⟩
  | cons a t ih =>
    intro s
    have h1 := visitSlot_measure s host a
    have h2 := ih (visitSlot s host a)
    exact ⟨Nat.le_trans h2.1 h1.1, h2.2.trans h1.2⟩

/-- `VisitPointers` never grows the measure components. -/
theorem visitPointers_measure (s : IMHeap N) (host : Fin N) (a b : Nat) :
    2 * whiteCount (visitPointers s host a b) +
      worklistSize (visitPointers s host a b) ≤
      2 * whiteCount s + worklistSize s ∧
    pbCount (visitPointers s host a b) = pbCount s :=
  foldl_visitSlot_measure host (offsetsList a b) s

/-- The chunk loop never grows the measure components. -/
theorem scanLoop_measure (host : Fin N) (size : Nat) :
    ∀ (fuel st en : Nat) (s : IMHeap N),
      2 * whiteCount (scanLoop host size fuel st en s).2 +
        worklistSize (scanLoop host size fuel st en s).2 ≤
        2 * whiteCount s + worklistSize s ∧
      pbCount (scanLoop host size fuel st en s).2 = pbCount s := by
  intro fuel
  induction fuel with
  | zero => intro st en s; exact ⟨Nat.le_refl _, rfl⟩
  | succ fuel ih =>
    intro st en s
    simp only [scanLoop]
    split
    · have h1 := visitPointers_measure s host st en
      have h2 := ih en (min size (en + kProgressBarScanningChunk))
        (visitPointers s host st en)
      exact ⟨Nat.le_trans h2.1 h1.1, h2.2.trans h1.2⟩
    · exact visitPointers_measure s host st en

/-- Visiting one slot does not move any progress bar. -/
theorem visitSlot_progressBar (s : IMHeap N) (host : Fin N) (off : Nat) :
    (visitSlot s host off).progressBar = s.progressBar := by
  unfold visitSlot whiteToGreyAndPush
  split <;> (try split) <;> rfl

/-- A pointer-range visit does not move any progress bar. -/
theorem foldl_visitSlot_progressBar (host : Fin N) (offs : List Nat) :
    ∀ s : IMHeap N,
      (offs.foldl (fun t off => visitSlot t host off) s).progressBar =
        s.progressBar := by
  induction offs with
  | nil => intro s; rfl
  | cons a t ih =>
    intro s
    exact (ih _).trans (visitSlot_progressBar s host a)

/-- The chunk loop does not itself move any progress bar (the caller
stores the new offset afterwards). -/
theorem scanLoop_progressBar (host : Fin N) (size : Nat) :
    ∀ (fuel st en : Nat) (s : IMHeap N),
      (scanLoop host size fuel st en s).2.progressBar = s.progressBar := by
  intro fuel
  induction fuel with
  | zero => intro st en s; rfl
  | succ fuel ih =>
    intro st en s
    simp only [scanLoop]
    split
    · exact (ih _ _ _).trans (foldl_visitSlot_progressBar host _ s)
    · exact foldl_visitSlot_progressBar host _ s

/-- Pending chunks only depend on the progress-bar layout fields. -/
theorem chunksLeft_congr {s t : IMHeap N} (o : Fin N)
    (h1 : t.hasProgressBar = s.hasProgressBar) (h2 : t.sizeOf = s.sizeOf)
    (h3 : t.progressBar = s.progressBar) :
    chunksLeft t o = chunksLeft s o := by
  unfold chunksLeft
  rw [h1, h2, h3]

/-- Ceiling-division decrease of the pending-chunk count: advancing at
least to the end of the first chunk strictly drops the number of
pending chunks. -/
theorem chunksLeft_dec (C size pb st pr1 : Nat) (hC : 0 < C) (hpb : pb ≤ st)
    (hst : st < size) (hpr : min size (st + C) ≤ pr1) :
    (size - pr1 + C - 1) / C < (size - pb + C - 1) / C := by
  by_cases hge : size ≤ pr1
  · have hL : (size - pr1 + C - 1) / C = 0 := by
      apply Nat.div_eq_of_lt
      omega
    have hR : 1 ≤ (size - pb + C - 1) / C := by
      rw [Nat.one_le_div_iff hC]
      omega
    omega
  · have h1 : st + C ≤ pr1 := by omega
    have h2 : size - pr1 + C - 1 ≤ size - pb - 1 := by omega
    have h3 : (size - pr1 + C - 1) / C ≤ (size - pb - 1) / C :=
      Nat.div_le_div_right h2
    have h4 : size - pb + C - 1 = size - pb - 1 + C := by omega
    rw [h4, Nat.add_div_right _ hC]
    omega

/-- Queue size only depends on the two queues. -/
theorem worklistSize_congr {s t : IMHeap N} (h1 : t.worklist = s.worklist)
    (h2 : t.bailout = s.bailout) : worklistSize t = worklistSize s := by
  unfold worklistSize
  rw [h1, h2]

/-- Measure accounting for the whole progress-bar visit path: the
re-pushed queue entry is paid for by the strictly decreased pending
chunk count, so any state `u` assembled from the chunk loop's result
with the stored progress bar stays at or below the original measure.
`t` is the post-re-push state, `u` the state after the progress-bar
store (with or without the incomplete-scan report). -/
theorem vfaTail_measure (s t : IMHeap N) (obj : Fin N) (pr : Nat × IMHeap N)
    (hpr : scanLoop obj (s.sizeOf obj) (s.sizeOf obj)
        (max kStartOffset (s.progressBar obj))
        (min (s.sizeOf obj)
          (max kStartOffset (s.progressBar obj) + kProgressBarScanningChunk))
        t = pr)
    (ht1 : t.color = s.color) (ht2 : worklistSize t = worklistSize s + 1)
    (ht3 : t.hasProgressBar = s.hasProgressBar) (ht4 : t.sizeOf = s.sizeOf)
    (ht5 : t.progressBar = s.progressBar)
    (hpb : s.hasProgressBar obj = true)
    (hstart : max kStartOffset (s.progressBar obj) < s.sizeOf obj)
    (u : IMHeap N) (hu1 : u.color = pr.2.color)
    (hu2 : u.worklist = pr.2.worklist) (hu3 : u.bailout = pr.2.bailout)
    (hu4 : u.hasProgressBar = pr.2.hasProgressBar)
    (hu5 : u.sizeOf = pr.2.sizeOf)
    (hu6 : u.progressBar = Function.update pr.2.progressBar obj pr.1) :
    measureG u ≤ measureG s := by
  have hC : 0 < kProgressBarScanningChunk := by decide
  have hm := scanLoop_measure obj (s.sizeOf obj) (s.sizeOf obj)
    (max kStartOffset (s.progressBar obj))
    (min (s.sizeOf obj)
      (max kStartOffset (s.progressBar obj) + kProgressBarScanningChunk)) t
  have hse := scanLoop_staticEq obj (s.sizeOf obj) (s.sizeOf obj)
    (max kStartOffset (s.progressBar obj))
    (min (s.sizeOf obj)
      (max kStartOffset (s.progressBar obj) + kProgressBarScanningChunk)) t
  have hbar := scanLoop_progressBar obj (s.sizeOf obj) (s.sizeOf obj)
    (max kStartOffset (s.progressBar obj))
    (min (s.sizeOf obj)
      (max kStartOffset (s.progressBar obj) + kProgressBarScanningChunk)) t
  have hbd := scanLoop_bounds obj (s.sizeOf obj) (s.sizeOf obj)
    (max kStartOffset (s.progressBar obj))
    (min (s.sizeOf obj)
      (max kStartOffset (s.progressBar obj) + kProgressBarScanningChunk)) t
    (Nat.le_of_lt (Nat.lt_min.mpr ⟨hstart, Nat.lt_add_of_pos_right hC⟩))
    (Nat.min_le_left _ _)
  rw [hpr] at hm hse hbar hbd
  have hfirst : min (s.sizeOf obj)
      (max kStartOffset (s.progressBar obj) + kProgressBarScanningChunk) ≤
      pr.1 := hbd.2.2 (by omega)
  have hWt : whiteCount t = whiteCount s := whiteCount_congr ht1
  have hpbT : pbCount t = pbCount s := pbCount_congr ht3 ht4 ht5
  have hWu : whiteCount u = whiteCount pr.2 := whiteCount_congr hu1
  have hLu : worklistSize u = worklistSize pr.2 := worklistSize_congr hu2 hu3
  have hupd := pbCount_update (s := pr.2) (t := u) obj pr.1 hu4 hu5 hu6
  have hPBpr : pr.2.hasProgressBar obj = true := by
    rw [hse.hpb, ht3]; exact hpb
  have hSZpr : pr.2.sizeOf obj = s.sizeOf obj := by rw [hse.hsize, ht4]
  have hBpr : chunksLeft pr.2 obj = chunksLeft s obj :=
    chunksLeft_congr obj (by rw [hse.hpb, ht3]) (by rw [hse.hsize, ht4])
      (by rw [hbar, ht5])
  have hB : chunksLeft s obj =
      (s.sizeOf obj - s.progressBar obj + kProgressBarScanningChunk - 1) /
        kProgressBarScanningChunk := by
    unfold chunksLeft
    rw [if_pos hpb]
  have hval : (if pr.2.hasProgressBar obj = true then
      (pr.2.sizeOf obj - pr.1 + kProgressBarScanningChunk - 1) /
        kProgressBarScanningChunk
    else 0) =
      (s.sizeOf obj - pr.1 + kProgressBarScanningChunk - 1) /
        kProgressBarScanningChunk := by
    rw [if_pos hPBpr, hSZpr]
  rw [hval] at hupd
  have hdec := chunksLeft_dec kProgressBarScanningChunk (s.sizeOf obj)
    (s.progressBar obj) (max kStartOffset (s.progressBar obj)) pr.1 hC
    (Nat.le_max_right _ _) hstart hfirst
  unfold measureG
  omega

/-- `VisitFixedArray` never grows the drain measure: a full-body visit
only pushes against whites, and the progress-bar path's re-push is
paid for by the pending-chunk decrease. -/
theorem visitFixedArray_measure (s : IMHeap N) (obj : Fin N) :
    measureG (visitFixedArray s obj).2 ≤ measureG s := by
  simp only [visitFixedArray]
  by_cases hpb : s.hasProgressBar obj = true
  · rw [if_pos hpb]
    by_cases hstart : max kStartOffset (s.progressBar obj) < s.sizeOf obj
    · rw [if_pos hstart]
      by_cases hccb : s.v8ConcurrentBuild = true
      · rw [if_pos hccb]
        split <;>
          exact vfaTail_measure s { s with bailout := s.bailout ++ [obj] } obj
            _ rfl rfl (by simp [worklistSize]; omega) rfl rfl rfl hpb hstart
            _ rfl rfl rfl rfl rfl rfl
      · rw [if_neg hccb]
        split <;>
          exact vfaTail_measure s { s with worklist := s.worklist ++ [obj] } obj
            _ rfl rfl (by simp [worklistSize]; omega) rfl rfl rfl hpb hstart
            _ rfl rfl rfl rfl rfl rfl
    · rw [if_neg hstart]
  · rw [if_neg hpb]
    exact measureG_le_of_parts
      (visitPointers_measure s obj kStartOffset (s.sizeOf obj)).1
      (visitPointers_measure s obj kStartOffset (s.sizeOf obj)).2

/-- `VisitFixedArray` touches only colors, the queues, the slot log,
the progress bar and the unscanned-bytes report. -/
theorem visitFixedArray_staticEq (s : IMHeap N) (obj : Fin N) :
    StaticEq s (visitFixedArray s obj).2 := by
  simp only [visitFixedArray]
  by_cases hpb : s.hasProgressBar obj = true
  · rw [if_pos hpb]
    by_cases hstart : max kStartOffset (s.progressBar obj) < s.sizeOf obj
    · rw [if_pos hstart]
      by_cases hccb : s.v8ConcurrentBuild = true
      · rw [if_pos hccb]
        have ht : StaticEq s { s with bailout := s.bailout ++ [obj] } := by
          constructor <;> rfl
        have hse := StaticEq.trans' ht (scanLoop_staticEq obj (s.sizeOf obj)
          (s.sizeOf obj) (max kStartOffset (s.progressBar obj))
          (min (s.sizeOf obj)
            (max kStartOffset (s.progressBar obj) + kProgressBarScanningChunk))
          { s with bailout := s.bailout ++ [obj] })
        split <;> exact StaticEq.trans' hse (by constructor <;> rfl)
      · rw [if_neg hccb]
        have ht : StaticEq s { s with worklist := s.worklist ++ [obj] } := by
          constructor <;> rfl
        have hse := StaticEq.trans' ht (scanLoop_staticEq obj (s.sizeOf obj)
          (s.sizeOf obj) (max kStartOffset (s.progressBar obj))
          (min (s.sizeOf obj)
            (max kStartOffset (s.progressBar obj) + kProgressBarScanningChunk))
          { s with worklist := s.worklist ++ [obj] })
        split <;> exact StaticEq.trans' hse (by constructor <;> rfl)
    · rw [if_neg hstart]
      exact StaticEq.refl' s
  · rw [if_neg hpb]
    exact visitPointers_staticEq s obj kStartOffset (s.sizeOf obj)

/-- `VisitObject` touches only colors, the queues, the slot log, the
progress bar and the unscanned-bytes report. -/
theorem visitObject_staticEq (s : IMHeap N) (obj : Fin N) :
    StaticEq s (visitObject s obj) := by
  unfold visitObject
  exact StaticEq.trans' (greyToBlackObj_staticEq s obj)
    (StaticEq.trans' (whiteToGreyAndPush_staticEq _ _)
      (visitFixedArray_staticEq _ _))

/-- `VisitObject` never grows the drain measure. -/
theorem visitObject_measure (s : IMHeap N) (obj : Fin N) :
    measureG (visitObject s obj) ≤ measureG s := by
  unfold visitObject
  exact le_trans (visitFixedArray_measure _ _)
    (le_trans
      (measureG_le_of_parts (whiteToGreyAndPush_measure _ _).1
        (whiteToGreyAndPush_measure _ _).2)
      (measureG_le_of_parts (greyToBlackObj_measure _ _).1
        (greyToBlackObj_measure _ _).2))

/-- The drain measure only depends on the colors, the queues and the
progress-bar bookkeeping. -/
theorem measureG_congr {s t : IMHeap N} (h1 : t.color = s.color)
    (h2 : t.worklist = s.worklist) (h3 : t.bailout = s.bailout)
    (h4 : t.hasProgressBar = s.hasProgressBar) (h5 : t.sizeOf = s.sizeOf)
    (h6 : t.progressBar = s.progressBar) : measureG t = measureG s := by
  unfold measureG
  rw [whiteCount_congr h1, worklistSize_congr h2 h3, pbCount_congr h4 h5 h6]

/-- A successful `Pop` removes exactly one queue entry and changes
nothing else, so it lowers the drain measure by exactly one. -/
theorem popWorklist_some (s s1 : IMHeap N) (o : Fin N)
    (hp : popWorklist s = some (o, s1)) :
    s1.color = s.color ∧ s1.hasProgressBar = s.hasProgressBar ∧
      s1.sizeOf = s.sizeOf ∧ s1.progressBar = s.progressBar ∧
      worklistSize s1 + 1 = worklistSize s ∧
      measureG s1 + 1 = measureG s ∧ StaticEq s s1 := by
  unfold popWorklist at hp
  split at hp
  · rename_i a r hbl
    simp only [Option.some.injEq, Prod.mk.injEq] at hp
    obtain ⟨-, hs1⟩ := hp
    subst hs1
    refine ⟨rfl, rfl, rfl, rfl, ?_, ?_, by constructor <;> rfl⟩
    · simp only [worklistSize, hbl, List.length_cons]
      omega
    · have hwc : whiteCount { s with bailout := r } = whiteCount s :=
        whiteCount_congr rfl
      have hpc : pbCount { s with bailout := r } = pbCount s :=
        pbCount_congr rfl rfl rfl
      have hws : worklistSize { s with bailout := r } + 1 = worklistSize s := by
        simp only [worklistSize, hbl, List.length_cons]
        omega
      unfold measureG
      omega
  · split at hp
    · rename_i hbl a r hwl
      simp only [Option.some.injEq, Prod.mk.injEq] at hp
      obtain ⟨-, hs1⟩ := hp
      subst hs1
      refine ⟨rfl, rfl, rfl, rfl, ?_, ?_, by constructor <;> rfl⟩
      · simp only [worklistSize, hwl, List.length_cons]
        omega
      · have hwc : whiteCount { s with worklist := r } = whiteCount s :=
          whiteCount_congr rfl
        have hpc : pbCount { s with worklist := r } = pbCount s :=
          pbCount_congr rfl rfl rfl
        have hws : worklistSize { s with worklist := r } + 1 =
            worklistSize s := by
          simp only [worklistSize, hwl, List.length_cons]
          omega
        unfold measureG
        omega
    · exact absurd hp (by simp)

/-- `Pop` fails exactly on an empty worklist. -/
theorem popWorklist_none (s : IMHeap N) (hp : popWorklist s = none) :
    worklistSize s = 0 := by
  unfold popWorklist at hp
  split at hp
  · exact absurd hp (by simp)
  · split at hp
    · exact absurd hp (by simp)
    · simp_all [worklistSize]

/-- The drain loop never grows the measure. -/
theorem pmw_measure_le (fuel : Nat) :
    ∀ (bp btp : Nat) (c : ForceCompletionAction) (s : IMHeap N),
      measureG (processMarkingWorklist fuel bp btp c s).2 ≤ measureG s := by
  induction fuel with
  | zero => intro bp btp c s; exact Nat.le_refl _
  | succ f ih =>
    intro bp btp c s
    simp only [processMarkingWorklist]
    split
    · cases hp : popWorklist s with
      | none => exact Nat.le_refl _
      | some pr =>
        obtain ⟨o, s1⟩ := pr
        dsimp only
        obtain ⟨hc, hpb2, hsz, hbar, hwsz, hm, hse⟩ := popWorklist_some s s1 o hp
        split
        · exact le_trans (ih bp btp c s1) (by omega)
        · refine le_trans (ih _ _ _ _) ?_
          have h2 := visitObject_measure { s1 with unscannedBytes := 0 } o
          have h3 : measureG { s1 with unscannedBytes := 0 } = measureG s1 :=
            measureG_congr rfl rfl rfl rfl rfl rfl
          omega
    · exact Nat.le_refl _

/-- With fuel, budget headroom and a non-empty worklist, the drain loop
strictly shrinks the measure: it pops at least one entry. -/
theorem pmw_measure_lt (fuel bp btp : Nat) (c : ForceCompletionAction)
    (s : IMHeap N) (hf : fuel ≠ 0) (hb : bp < btp) (hw : worklistSize s ≠ 0) :
    measureG (processMarkingWorklist fuel bp btp c s).2 < measureG s := by
  cases fuel with
  | zero => exact absurd rfl hf
  | succ f =>
    simp only [processMarkingWorklist]
    rw [if_pos (Or.inl hb)]
    cases hp : popWorklist s with
    | none => exact absurd (popWorklist_none s hp) hw
    | some pr =>
      obtain ⟨o, s1⟩ := pr
      dsimp only
      obtain ⟨hc, hpb2, hsz, hbar, hwsz, hm, hse⟩ := popWorklist_some s s1 o hp
      split
      · have h1 := pmw_measure_le f bp btp c s1
        omega
      · refine lt_of_le_of_lt (pmw_measure_le f _ _ _ _) ?_
        have h2 := visitObject_measure { s1 with unscannedBytes := 0 } o
        have h3 : measureG { s1 with unscannedBytes := 0 } = measureG s1 :=
          measureG_congr rfl rfl rfl rfl rfl rfl
        omega

/-- The drain loop touches only colors, the queues, the slot log, the
progress bars and the unscanned-bytes report. -/
theorem pmw_staticEq (fuel : Nat) :
    ∀ (bp btp : Nat) (c : ForceCompletionAction) (s : IMHeap N),
      StaticEq s (processMarkingWorklist fuel bp btp c s).2 := by
  induction fuel with
  | zero => intro bp btp c s; exact StaticEq.refl' s
  | succ f ih =>
    intro bp btp c s
    simp only [processMarkingWorklist]
    split
    · cases hp : popWorklist s with
      | none => exact StaticEq.refl' s
      | some pr =>
        obtain ⟨o, s1⟩ := pr
        dsimp only
        have hse := (popWorklist_some s s1 o hp).2.2.2.2.2.2
        split
        · exact StaticEq.trans' hse (ih bp btp c s1)
        · exact StaticEq.trans' hse (StaticEq.trans' (by constructor <;> rfl)
            (StaticEq.trans' (visitObject_staticEq _ _) (ih _ _ _ _)))
    · exact StaticEq.refl' s

/-- `FinalizeMarking`'s request path changes only the GC request
bookkeeping. -/
theorem finalizeMarkingReq_fields (a : CompletionAction) (s : IMHeap N) :
    (finalizeMarkingReq a s).worklist = s.worklist ∧
      (finalizeMarkingReq a s).bailout = s.bailout ∧
      (finalizeMarkingReq a s).color = s.color ∧
      (finalizeMarkingReq a s).hasProgressBar = s.hasProgressBar ∧
      (finalizeMarkingReq a s).sizeOf = s.sizeOf ∧
      (finalizeMarkingReq a s).progressBar = s.progressBar ∧
      (finalizeMarkingReq a s).bytesAhead = s.bytesAhead ∧
      (finalizeMarkingReq a s).state = s.state := by
  unfold finalizeMarkingReq
  split <;> exact ⟨rfl, rfl, rfl, rfl, rfl, rfl, rfl, rfl⟩

/-- `MarkingComplete` moves to `COMPLETE` and changes only the hurry
and request bookkeeping. -/
theorem markingCompleteF_fields (a : CompletionAction) (s : IMHeap N) :
    (markingCompleteF a s).worklist = s.worklist ∧
      (markingCompleteF a s).bailout = s.bailout ∧
      (markingCompleteF a s).color = s.color ∧
      (markingCompleteF a s).hasProgressBar = s.hasProgressBar ∧
      (markingCompleteF a s).sizeOf = s.sizeOf ∧
      (markingCompleteF a s).progressBar = s.progressBar ∧
      (markingCompleteF a s).bytesAhead = s.bytesAhead ∧
      (markingCompleteF a s).state = IMState.COMPLETE := by
  unfold markingCompleteF
  split <;> exact ⟨rfl, rfl, rfl, rfl, rfl, rfl, rfl, rfl⟩

/-- The completion handshake leaves the queues, colors, progress bars
and the credit counter alone, and moves the state only to `COMPLETE`,
only when the worklist is already empty. -/
theorem stepTail_fields (a : CompletionAction) (c : ForceCompletionAction)
    (t : IMHeap N) :
    (stepTail a c t).worklist = t.worklist ∧
      (stepTail a c t).bailout = t.bailout ∧
      (stepTail a c t).color = t.color ∧
      (stepTail a c t).hasProgressBar = t.hasProgressBar ∧
      (stepTail a c t).sizeOf = t.sizeOf ∧
      (stepTail a c t).progressBar = t.progressBar ∧
      (stepTail a c t).bytesAhead = t.bytesAhead ∧
      ((stepTail a c t).state = t.state ∨
        ((stepTail a c t).state = IMState.COMPLETE ∧
          t.worklist = [] ∧ t.bailout = [])) := by
  unfold stepTail
  split
  · rename_i hemp
    split
    · split
      · split
        · obtain ⟨h1, h2, h3, h4, h5, h6, h7, h8⟩ :=
            finalizeMarkingReq_fields a t
          exact ⟨h1, h2, h3, h4, h5, h6, h7, Or.inl h8⟩
        · obtain ⟨h1, h2, h3, h4, h5, h6, h7, h8⟩ :=
            markingCompleteF_fields a t
          exact ⟨h1, h2, h3, h4, h5, h6, h7, Or.inr ⟨h8, hemp.1, hemp.2⟩⟩
      · exact ⟨rfl, rfl, rfl, rfl, rfl, rfl, rfl, Or.inl rfl⟩
    · exact ⟨rfl, rfl, rfl, rfl, rfl, rfl, rfl, Or.inl rfl⟩
  · exact ⟨rfl, rfl, rfl, rfl, rfl, rfl, rfl, Or.inl rfl⟩

/-- One driven `Step` from `MARKING` with a non-empty worklist strictly
shrinks the drain measure, and afterwards the controller is still
marking unless the worklist has just emptied. -/
theorem stepAuto_inv (b : Nat) (s : IMHeap N) (h : s.state = IMState.MARKING)
    (hw : worklistSize s ≠ 0) :
    measureG (stepAuto b s) < measureG s ∧
      ((stepAuto b s).state = IMState.MARKING ∨
        worklistSize (stepAuto b s) = 0) := by
  have hm1 : measureG s ≠ 0 := by
    have hcomp : worklistSize s ≤ measureG s := by unfold measureG; omega
    omega
  have hlt := pmw_measure_lt (measureG s) 0 (b + 1)
    ForceCompletionAction.DO_NOT_FORCE_COMPLETION s hm1 (Nat.succ_pos b) hw
  have hse := pmw_staticEq (measureG s) 0 (b + 1)
    ForceCompletionAction.DO_NOT_FORCE_COMPLETION s
  simp only [stepAuto, step]
  rw [if_neg (show ¬(s.state = IMState.SWEEPING) from by simp [h])]
  rw [if_pos h]
  rw [if_neg (show ¬(StepOrigin.kV8 = StepOrigin.kTask) from by decide)]
  generalize hq : processMarkingWorklist (measureG s) 0 (b + 1)
    ForceCompletionAction.DO_NOT_FORCE_COMPLETION s = q at hlt hse ⊢
  obtain ⟨h1, h2, h3, h4, h5, h6, h7, h8⟩ := stepTail_fields
    CompletionAction.GC_VIA_STACK_GUARD
    ForceCompletionAction.DO_NOT_FORCE_COMPLETION q.2
  dsimp only
  refine ⟨?_, ?_⟩
  · rw [measureG_congr h3 h1 h2 h4 h5 h6]
    exact hlt
  · rcases h8 with h8 | h8
    · exact Or.inl (by rw [h8, hse.hstate, h])
    · refine Or.inr ?_
      rw [worklistSize_congr h1 h2]
      simp [worklistSize, h8.2.1, h8.2.2]

/-- Bounded descent of the drain: from any state that is either still
marking or already drained, at most `measureG` driven steps empty the
worklist. -/
theorem drain_aux (b : Nat) :
    ∀ (m : Nat) (s : IMHeap N),
      (s.state = IMState.MARKING ∨ worklistSize s = 0) → measureG s ≤ m →
      ∃ n, n ≤ measureG s ∧ worklistSize ((stepAuto b)^[n] s) = 0 := by
  intro m
  induction m with
  | zero =>
    intro s hP hm
    refine ⟨0, Nat.zero_le _, ?_⟩
    have hcomp : worklistSize s ≤ measureG s := by unfold measureG; omega
    simp only [Function.iterate_zero, id]
    omega
  | succ m ih =>
    intro s hP hm
    by_cases hw : worklistSize s = 0
    · exact ⟨0, Nat.zero_le _, by simpa using hw⟩
    · have hst : s.state = IMState.MARKING := by
        rcases hP with h | h
        · exact h
        · exact absurd h hw
      obtain ⟨hlt, hP1⟩ := stepAuto_inv b s hst hw
      obtain ⟨n, hn, hend⟩ := ih (stepAuto b s) hP1 (by omega)
      refine ⟨n + 1, by omega, ?_⟩
      rw [Function.iterate_succ_apply]
      exact hend

/-- C7: from the `MARKING` state, with the mutator performing no
further allocations or stores, repeatedly calling `Step` with an
unbounded budget (here: driven by `stepAuto`, which always supplies
enough fuel and a positive byte budget) empties the marking worklist
after finitely many calls — at most `measureG s` of them, since each
pop either skips a filler or blackens an object and only white objects
are ever newly pushed. -/
theorem step_drains_worklist (s : IMHeap N)
    (h : s.state = IMState.MARKING) (b : Nat) :
    ∃ n, n ≤ measureG s ∧ worklistSize ((stepAuto b)^[n] s) = 0 :=
  drain_aux b (measureG s) s (Or.inl h) (Nat.le_refl _)

theorem step_drains_worklist_witness :
    drainHeap.state = IMState.MARKING ∧
      ∃ n, n ≤ measureG drainHeap ∧
        worklistSize ((stepAuto 0)^[n] drainHeap) = 0 :=
  ⟨rfl, step_drains_worklist drainHeap rfl 0⟩

/-- `StartMarking` never touches the ahead-of-schedule credit. -/
theorem startMarkingG_bytesAhead (s : IMHeap N) :
    (startMarkingG s).bytesAhead = s.bytesAhead := by
  simp only [startMarkingG]
  split
  · rfl
  · rw [(markRoots_staticEq _).hbytesAhead]
    split <;> rfl

/-- `FinalizeSweeping` never touches the ahead-of-schedule credit. -/
theorem finalizeSweeping_bytesAhead (s : IMHeap N) :
    (finalizeSweeping s).bytesAhead = s.bytesAhead := by
  simp only [finalizeSweeping]
  split <;> split
  · rw [startMarkingG_bytesAhead]
  · rfl
  · rw [startMarkingG_bytesAhead]
  · rfl

/-- `Step` changes the ahead-of-schedule credit exactly when its origin
is a background task, and then by exactly the bytes it processed. -/
theorem step_result_bytesAhead (f btp : Nat) (a : CompletionAction)
    (c : ForceCompletionAction) (origin : StepOrigin) (s : IMHeap N) :
    (step f btp a c origin s).2.bytesAhead =
      if origin = StepOrigin.kTask
      then s.bytesAhead + (step f btp a c origin s).1
      else s.bytesAhead := by
  simp only [step]
  by_cases hsw : s.state = IMState.SWEEPING
  · rw [if_pos hsw]
    by_cases hmk : (finalizeSweeping s).state = IMState.MARKING
    · rw [if_pos hmk]
      dsimp only
      rw [(stepTail_fields a c _).2.2.2.2.2.2.1]
      by_cases hT : origin = StepOrigin.kTask
      · rw [if_pos hT, if_pos hT]
        dsimp only
        rw [(pmw_staticEq f 0 btp
          ForceCompletionAction.DO_NOT_FORCE_COMPLETION
          (finalizeSweeping s)).hbytesAhead, finalizeSweeping_bytesAhead]
      · rw [if_neg hT, if_neg hT]
        rw [(pmw_staticEq f 0 btp
          ForceCompletionAction.DO_NOT_FORCE_COMPLETION
          (finalizeSweeping s)).hbytesAhead, finalizeSweeping_bytesAhead]
    · rw [if_neg hmk]
      dsimp only
      rw [finalizeSweeping_bytesAhead]
      split <;> omega
  · rw [if_neg hsw]
    by_cases hmk : s.state = IMState.MARKING
    · rw [if_pos hmk]
      dsimp only
      rw [(stepTail_fields a c _).2.2.2.2.2.2.1]
      by_cases hT : origin = StepOrigin.kTask
      · rw [if_pos hT, if_pos hT]
        dsimp only
        rw [(pmw_staticEq f 0 btp
          ForceCompletionAction.DO_NOT_FORCE_COMPLETION s).hbytesAhead]
      · rw [if_neg hT, if_neg hT]
        rw [(pmw_staticEq f 0 btp
          ForceCompletionAction.DO_NOT_FORCE_COMPLETION s).hbytesAhead]
    · rw [if_neg hmk]
      dsimp only
      split <;> omega

/-- An observer-origin (`kV8`) `Step` leaves the credit unchanged. -/
theorem step_v8_bytesAhead (f btp : Nat) (a : CompletionAction)
    (c : ForceCompletionAction) (s : IMHeap N) :
    (step f btp a c StepOrigin.kV8 s).2.bytesAhead = s.bytesAhead := by
  rw [step_result_bytesAhead, if_neg (by decide)]

/-- C10: the counter `bytes_marked_ahead_of_schedule_` is increased
only by `Step` calls of background-task origin — a `StepOrigin::kTask`
step adds exactly the bytes that call processed, while an
observer-origin `kV8` step never changes the credit — and it is
decreased only in `AdvanceIncrementalMarkingOnAllocation` when the
accumulated credit is at least the step's `bytes_to_process`: in that
case the credit is consumed and no worklist processing is performed in
that invocation (queues, colors and progress bars are untouched); in
every other advance path the credit is left unchanged. -/
theorem bytesAhead_credit_spec (f btp : Nat) (a : CompletionAction)
    (c : ForceCompletionAction) (s : IMHeap N)
    (fuel currentCounter stepSizeProgress maxStepSize : Nat) :
    (step f btp a c StepOrigin.kTask s).2.bytesAhead =
      s.bytesAhead + (step f btp a c StepOrigin.kTask s).1 ∧
    (step f btp a c StepOrigin.kV8 s).2.bytesAhead = s.bytesAhead ∧
    ((s.inGC ∨ ¬s.flagIncremental ∨
        (s.state ≠ IMState.SWEEPING ∧ s.state ≠ IMState.MARKING) ∨
        s.alwaysAllocate) →
      advanceIncrementalMarkingOnAllocation fuel currentCounter
        stepSizeProgress maxStepSize s = s) ∧
    (¬(s.inGC ∨ ¬s.flagIncremental ∨
        (s.state ≠ IMState.SWEEPING ∧ s.state ≠ IMState.MARKING) ∨
        s.alwaysAllocate) →
      (kAllocatedThreshold ≤
          s.bytesAllocated + (currentCounter - s.oldGenCounter) +
            stepSizeProgress →
        (min (s.bytesAllocated + (currentCounter - s.oldGenCounter) +
              stepSizeProgress) maxStepSize ≤ s.bytesAhead →
          (advanceIncrementalMarkingOnAllocation fuel currentCounter
              stepSizeProgress maxStepSize s).bytesAhead =
            s.bytesAhead -
              min (s.bytesAllocated + (currentCounter - s.oldGenCounter) +
                stepSizeProgress) maxStepSize ∧
          (advanceIncrementalMarkingOnAllocation fuel currentCounter
              stepSizeProgress maxStepSize s).worklist = s.worklist ∧
          (advanceIncrementalMarkingOnAllocation fuel currentCounter
              stepSizeProgress maxStepSize s).bailout = s.bailout ∧
          (advanceIncrementalMarkingOnAllocation fuel currentCounter
              stepSizeProgress maxStepSize s).color = s.color ∧
          (advanceIncrementalMarkingOnAllocation fuel currentCounter
              stepSizeProgress maxStepSize s).progressBar = s.progressBar) ∧
        (¬(min (s.bytesAllocated + (currentCounter - s.oldGenCounter) +
              stepSizeProgress) maxStepSize ≤ s.bytesAhead) →
          (advanceIncrementalMarkingOnAllocation fuel currentCounter
              stepSizeProgress maxStepSize s).bytesAhead = s.bytesAhead)) ∧
      (¬(kAllocatedThreshold ≤
          s.bytesAllocated + (currentCounter - s.oldGenCounter) +
            stepSizeProgress) →
        (advanceIncrementalMarkingOnAllocation fuel currentCounter
            stepSizeProgress maxStepSize s).bytesAhead = s.bytesAhead)) := by
  refine ⟨?_, ?_, ?_, ?_⟩
  · rw [step_result_bytesAhead, if_pos rfl]
  · exact step_v8_bytesAhead f btp a c s
  · intro hg
    simp only [advanceIncrementalMarkingOnAllocation]
    rw [if_pos hg]
  · intro hg
    simp only [advanceIncrementalMarkingOnAllocation,
      stepSizeToKeepUpWithAllocations]
    rw [if_neg hg]
    refine ⟨?_, ?_⟩
    · intro ht
      rw [if_pos ht]
      refine ⟨?_, ?_⟩
      · intro hcr
        rw [if_pos hcr]
        exact ⟨rfl, rfl, rfl, rfl, rfl⟩
      · intro hcr
        rw [if_neg hcr]
        dsimp only
        rw [step_v8_bytesAhead]
    · intro ht
      rw [if_neg ht]

theorem bytesAhead_credit_spec_witness :
    kAllocatedThreshold ≤ creditHeap.bytesAllocated +
        (100000 - creditHeap.oldGenCounter) + 0 ∧
      (advanceIncrementalMarkingOnAllocation 5 100000 0 70000
          creditHeap).bytesAhead =
        creditHeap.bytesAhead -
          min (creditHeap.bytesAllocated +
            (100000 - creditHeap.oldGenCounter) + 0) 70000 :=
  ⟨by decide,
    ((((bytesAhead_credit_spec 1 1 CompletionAction.GC_VIA_STACK_GUARD
        ForceCompletionAction.DO_NOT_FORCE_COMPLETION creditHeap 5 100000 0
        70000).2.2.2 (by decide)).1 (by decide)).1 (by decide)).1⟩

end V8
